import Mathlib

/-!
# geecache: LRU cache and consistent-hash ring

A shallow embedding of `geecache/lru/lru.go`,
`geecache/consistenthash/consistenthash.go`, `geecache/cache.go`,
`geecache/geecache.go` and `geecache/byteview.go`, followed by the properties
proved about them.

Modelling conventions.

* A Go `string` is a Lean `String`; `len(s)` is `s.utf8ByteSize`.
* A value of type `int64` is an `Int` in `[-2^63, 2^63)`. Every conversion to
  `int64` and every `int64` addition or subtraction of `lru.go` is followed by
  `lru.int64`, which wraps the result into that range, as the machine does.
  `maxBytes` is an argument of `New` and is only compared.
* `container/list` is a sequence of element addresses, front first. An
  element is identified by its address (a `Nat`); what an element points to
  (`ele.Value.(*entry)`) is read from `heap`. Fresh elements take the address
  `next`.
* A Go `map` is a finite association list with unique keys (`AList`).
* The optional callback `OnEvicted` is arbitrary client code. The model keeps
  whether one is configured and records every invocation, in order, together
  with the list, map and byte total the callback can observe when it runs.
* The loop of `Add` may run forever, so `Add` takes a bound on the number of
  evaluations of the loop guard and returns `none` when the bound is hit.
* Cache and group see a `ByteView` by its contents. Where it matters that two
  slices are different pieces of memory, `byteview.ByteView` holds its slice as
  a reference into a memory of arrays.
* A Go `error` returned by `Group.Get` is either the one `Get` makes itself or
  one of the getter's, kept apart by the constructors of `geecache.Error`.
-/

namespace lru

/-- The `int64` that an integer is converted to, and that an `int64` sum or
difference wraps to: the number in `[-2^63, 2^63)` that differs from it by a
multiple of `2^64`. -/
def int64 (x : Int) : Int :=
  (x + 9223372036854775808) % 18446744073709551616 - 9223372036854775808

/-- Value use Len to count how many bytes it takes. -/
class Value (V : Type) where
  /-- The `Len() int` method; an `int` has 64 bits, and `int64(v.Len())` is
  `int64 (Len v)`. -/
  Len : V → Int

/-- The `entry` struct: what a list element points to. -/
structure entry (V : Type) where
  key : String
  value : V

/-- One recorded invocation `c.OnEvicted(key, value)`, with the state of the
cache at the moment of the call. -/
structure EvictedCall (V : Type) where
  key : String
  value : V
  ll : List Nat
  cache : AList (fun _ : String => Nat)
  nbytes : Int

/-- Cache is a LRU cache. It is not safe for concurrent access. -/
structure Cache (V : Type) where
  /-- The `int64` given to `New`; it is compared with `nbytes` and never
  computed with. -/
  maxBytes : Int
  /-- The `int64` counter: every value stored here is the result of `int64`. -/
  nbytes : Int
  /-- The recency list `*list.List`: element addresses, front first. -/
  ll : List Nat
  /-- The lookup map `map[string]*list.Element`. -/
  cache : AList (fun _ : String => Nat)
  /-- Whether `OnEvicted` is non-nil. -/
  OnEvicted : Bool
  /-- The entries that allocated elements point to. -/
  heap : Nat → Option (entry V)
  /-- The address of the next element to be allocated. -/
  next : Nat
  /-- The invocations of `OnEvicted` so far, oldest first. -/
  calls : List (EvictedCall V)

variable {V : Type}

/-- `list.MoveToFront(e)`: moves `e` to the front if it is an element of the
list, otherwise the list is not modified. -/
def MoveToFront (l : List Nat) (e : Nat) : List Nat :=
  if e ∈ l then e :: l.erase e else l

/-- `list.Remove(e)`: removes `e` from the list if it is an element of it. -/
def Remove (l : List Nat) (e : Nat) : List Nat :=
  l.erase e

/-- `list.Back()`: the last element of the list, or nil if it is empty. -/
def Back (l : List Nat) : Option Nat :=
  l.getLast?

/-- `list.PushFront`: inserts a new element at the front. -/
def PushFront (l : List Nat) (e : Nat) : List Nat :=
  e :: l

/-- New is the Constructor of Cache. -/
def New (maxBytes : Int) (onEvicted : Bool) : Cache V :=
  { maxBytes := maxBytes
    nbytes := 0
    ll := []
    cache := ∅
    OnEvicted := onEvicted
    heap := fun _ => none
    next := 0
    calls := [] }

/-- Get look ups a key's value. The result is the pair `(value, ok)` of the
source as an `Option`, with the cache after the call. An address without an
entry does not occur (elements are only created by `Add`, which gives them
one); the model treats it as a miss. -/
def Get (c : Cache V) (key : String) : Option V × Cache V :=
  match c.cache.lookup key with
  | some ele =>
    match c.heap ele with
    | some kv => (some kv.value, { c with ll := MoveToFront c.ll ele })
    | none => (none, c)
  | none => (none, c)

/-- RemoveOldest removes the oldest item. -/
def RemoveOldest [Value V] (c : Cache V) : Cache V :=
  match Back c.ll with
  | none => c
  | some ele =>
    match c.heap ele with
    | none => c
    | some kv =>
      let c1 : Cache V :=
        { c with
          ll := Remove c.ll ele
          cache := c.cache.erase kv.key
          nbytes := int64 (c.nbytes -
            int64 (int64 (kv.key.utf8ByteSize : Int) + int64 (Value.Len kv.value))) }
      if c1.OnEvicted then
        { c1 with calls := c1.calls ++ [⟨kv.key, kv.value, c1.ll, c1.cache, c1.nbytes⟩] }
      else c1

/-- The first half of `Add`: the update of an existing entry or the insertion
of a new one, before the eviction loop. -/
def addEntry [Value V] (c : Cache V) (key : String) (value : V) : Cache V :=
  match c.cache.lookup key with
  | some ele =>
    match c.heap ele with
    | some kv =>
      { c with
        ll := MoveToFront c.ll ele
        nbytes := int64 (c.nbytes + int64 (int64 (Value.Len value) - int64 (Value.Len kv.value)))
        heap := Function.update c.heap ele (some { kv with value := value }) }
    | none => c
  | none =>
    let ele := c.next
    { c with
      ll := PushFront c.ll ele
      heap := Function.update c.heap ele (some ⟨key, value⟩)
      next := ele + 1
      cache := c.cache.insert key ele
      nbytes := int64 (c.nbytes + int64 (int64 (key.utf8ByteSize : Int) + int64 (Value.Len value))) }

/-- The loop `for c.maxBytes != 0 && c.maxBytes < c.nbytes { c.RemoveOldest() }`.
The first argument bounds the number of evaluations of the guard; `none`
means the bound was reached with the loop still running. -/
def evictLoop [Value V] : Nat → Cache V → Option (Cache V)
  | 0, _ => none
  | fuel + 1, c =>
    if c.maxBytes ≠ 0 ∧ c.maxBytes < c.nbytes then evictLoop fuel (RemoveOldest c)
    else some c

/-- Add adds a value to the cache. -/
def Add [Value V] (fuel : Nat) (c : Cache V) (key : String) (value : V) : Option (Cache V) :=
  evictLoop fuel (addEntry c key value)

/-- Len the number of cache entries. -/
def Len (c : Cache V) : Nat :=
  c.ll.length

/-- The size `len(key) + value.Len()` of the entry at address `a`. -/
def entryBytes [Value V] (heap : Nat → Option (entry V)) (a : Nat) : Int :=
  match heap a with
  | some kv => (kv.key.utf8ByteSize : Int) + Value.Len kv.value
  | none => 0

/-- The sum of `len(key) + value.Len()` over the entries of the recency list,
as a number (not wrapped). -/
def liveBytes [Value V] (c : Cache V) : Int :=
  (c.ll.map (entryBytes c.heap)).sum

/-- The calls a client can make on a cache. -/
inductive Op (V : Type) where
  | add (key : String) (value : V)
  | get (key : String)
  | removeOldest

/-- One call on the cache; `none` when the call does not return. -/
def step [Value V] (fuel : Nat) (c : Cache V) : Op V → Option (Cache V)
  | Op.add key value => Add fuel c key value
  | Op.get key => some (Get c key).2
  | Op.removeOldest => some (RemoveOldest c)

/-- A sequence of calls, each made when the previous one has returned. -/
def run [Value V] (fuel : Nat) : List (Op V) → Cache V → Option (Cache V)
  | [], c => some c
  | op :: ops, c => (step fuel c op).bind (run fuel ops)

/-- The states a cache can be in: those produced from `New` by a finite
sequence of calls that all return. -/
def Reachable [Value V] (c : Cache V) : Prop :=
  ∃ (maxBytes : Int) (onEvicted : Bool) (fuel : Nat) (ops : List (Op V)),
    run fuel ops (New maxBytes onEvicted) = some c

/-- The list and the map describe the same entries and the byte total is the
sum of their sizes in `int64` arithmetic. -/
structure Inv [Value V] (c : Cache V) : Prop where
  nodup : c.ll.Nodup
  alloc : ∀ a ∈ c.ll, a < c.next
  list_map : ∀ a ∈ c.ll, ∃ kv, c.heap a = some kv ∧ c.cache.lookup kv.key = some a
  map_list : ∀ k a, c.cache.lookup k = some a →
    a ∈ c.ll ∧ ∃ kv, c.heap a = some kv ∧ kv.key = k
  bytes : c.nbytes = int64 (liveBytes c)

/-- The sequence of `Add` calls made with the given keys and values. -/
def addOps (adds : List (String × V)) : List (Op V) :=
  adds.map (fun kv => Op.add kv.1 kv.2)

/-- What a call adds to the record of the value most recently given to `Add`
for each key. -/
def recordAdd (f : String → Option V) : Op V → String → Option V
  | Op.add k v => fun key => if key = k then some v else f key
  | Op.get _ => f
  | Op.removeOldest => f

/-- The value given by the most recent `Add` for each key in a sequence of
calls, `none` for a key never added. -/
def lastAdded (ops : List (Op V)) : String → Option V :=
  ops.foldl recordAdd (fun _ => none)

/-- The entries on the recency list, front first. -/
def listEntries (c : Cache V) : List (entry V) :=
  c.ll.filterMap c.heap

/-- The keys on the recency list, front first. -/
def listKeys (c : Cache V) : List String :=
  (listEntries c).map entry.key

/-- The values held by the live entries are those recorded by `f`. -/
def Hist (c : Cache V) (f : String → Option V) : Prop :=
  ∀ k a kv, c.cache.lookup k = some a → c.heap a = some kv → f k = some kv.value

end lru

/-- A holder of bytes, as in `byteview.go`; its `Len` is the number of bytes. -/
structure ByteView where
  b : List UInt8
deriving DecidableEq

instance : lru.Value ByteView := ⟨fun v => (v.b.length : Int)⟩

/-- A client type implementing `Value` whose `Len()` method returns the number
it carries. -/
structure Sized where
  n : Int
deriving DecidableEq

instance : lru.Value Sized := ⟨Sized.n⟩


namespace consistenthash

/-- Hash maps bytes to uint32. The value of the function is converted to the
range of `uint32` where it is used. -/
abbrev Hash := List UInt8 → Nat

/-- Conversion to `uint32`. -/
def uint32 (n : Nat) : Nat :=
  n % 4294967296

/-- The conversion `[]byte(s)`. -/
def bytes (s : String) : List UInt8 :=
  s.toUTF8.data.toList

/-- One byte of the table-free CRC-32 computation (reflected polynomial
`0xedb88320`). -/
def crc32Update (crc : Nat) (b : UInt8) : Nat :=
  (List.range 8).foldl
    (fun x _ => if x % 2 = 1 then Nat.xor (x / 2) 3988292384 else x / 2)
    (Nat.xor crc b.toNat)

/-- The default hash `crc32.ChecksumIEEE` of the standard library. -/
def ChecksumIEEE (data : List UInt8) : Nat :=
  Nat.xor (data.foldl crc32Update 4294967295) 4294967295

/-- Map constains all hashed keys. -/
structure Map where
  hash : Hash
  replicas : Int
  keys : List Nat
  hashMap : AList (fun _ : Nat => String)

/-- New creates a map instance; `none` stands for a nil hash function. -/
def New (replicas : Int) (fn : Option Hash) : Map :=
  { replicas := replicas
    hash := match fn with
      | some f => f
      | none => ChecksumIEEE
    keys := []
    hashMap := ∅ }

/-- `strconv.Itoa` on a non-negative number. -/
def Itoa (i : Nat) : String :=
  toString i

/-- `sort.Ints`: sorts into increasing order. -/
def Ints (l : List Nat) : List Nat :=
  l.insertionSort (fun a b => a ≤ b)

/-- The body of the inner loop of `Add`, for replica index `i` of `key`. -/
def addReplica (m : Map) (key : String) (i : Nat) : Map :=
  let hash := uint32 (m.hash (bytes (Itoa i ++ key)))
  { m with
    keys := m.keys ++ [hash]
    hashMap := m.hashMap.insert hash key }

/-- The inner loop `for i := 0; i < m.replicas; i++` of `Add` for one key. -/
def addKey (m : Map) (key : String) : Map :=
  (List.range m.replicas.toNat).foldl (fun m i => addReplica m key i) m

/-- Add adds some keys to the hash. -/
def Add (m : Map) (keys : List String) : Map :=
  let m1 := keys.foldl addKey m
  { m1 with keys := Ints m1.keys }

/-- The loop of `sort.Search` on the interval from `i` to `j`. Every iteration
shrinks the interval, so `j - i` iterations are enough; the first argument is
at least that number. -/
def searchLoop (f : Nat → Bool) : Nat → Nat → Nat → Nat
  | 0, i, _ => i
  | fuel + 1, i, j =>
    if i < j then
      let h := (i + j) / 2
      if !f h then searchLoop f fuel (h + 1) j
      else searchLoop f fuel i h
    else i

/-- `sort.Search`: binary search for the smallest index in `[0, n)` at which
`f` is true, `n` if there is none. -/
def Search (n : Nat) (f : Nat → Bool) : Nat :=
  searchLoop f n 0 n

/-- Get gets the closest item in the hash to the provided key. -/
def Get (m : Map) (key : String) : String :=
  if m.keys.length = 0 then ""
  else
    let hash := uint32 (m.hash (bytes key))
    let idx := Search m.keys.length (fun i => decide (m.keys.getD i 0 ≥ hash))
    (m.hashMap.lookup (m.keys.getD (idx % m.keys.length) 0)).getD ""

/-- The rings that can exist: those built from `New` by a finite sequence of
`Add` calls. -/
def Reachable (m : Map) : Prop :=
  ∃ (replicas : Int) (fn : Option Hash) (calls : List (List String)),
    m = calls.foldl Add (New replicas fn)

/-- The ring position of replica `i` of the node `key`. -/
def position (hash : Hash) (key : String) (i : Nat) : Nat :=
  uint32 (hash (bytes (Itoa i ++ key)))

/-- The ring positions of the replicas of the node `key`. -/
def positions (hash : Hash) (replicas : Int) (key : String) : List Nat :=
  (List.range replicas.toNat).map (position hash key)

/-- The position `p` is the one that owns hash `h` on a ring with positions
`keys`: the smallest position that is at least `h`, or the smallest position
of all when none is at least `h`. -/
def OwnerPos (keys : List Nat) (h p : Nat) : Prop :=
  p ∈ keys ∧
    ((h ≤ p ∧ ∀ q ∈ keys, h ≤ q → p ≤ q) ∨ ((∀ q ∈ keys, q < h) ∧ ∀ q ∈ keys, p ≤ q))

/-- The state of a ring built from a fresh one with the node names `names`. -/
structure RingInv (m : Map) (names : List String) : Prop where
  sorted : m.keys.Sorted (fun a b => a ≤ b)
  mem_keys : ∀ q, q ∈ m.keys ↔ ∃ n ∈ names, q ∈ positions m.hash m.replicas n
  lookup_sound : ∀ q n, m.hashMap.lookup q = some n →
    n ∈ names ∧ q ∈ positions m.hash m.replicas n
  lookup_total : ∀ q ∈ m.keys, ∃ n, m.hashMap.lookup q = some n

/-- The ring of the nodes "A" and "B", three replicas each, with the default
hash function. -/
def ringAB : Map :=
  [["A", "B"]].foldl Add (New 3 none)

end consistenthash

namespace geecache

/-- `make([]byte, n)`: a new sequence of `n` zero bytes. -/
def make (n : Nat) : List UInt8 :=
  List.replicate n 0

/-- `copy(dst, src)`: the contents of `dst` after the call, which overwrites
its first `min(len(dst), len(src))` elements with those of `src`. -/
def copy (dst src : List UInt8) : List UInt8 :=
  src.take dst.length ++ dst.drop src.length

/-- The function `cloneBytes` of `byteview.go`, on contents. -/
def cloneBytes (b : List UInt8) : List UInt8 :=
  copy (make b.length) b

/-- The struct `cache` of `cache.go`. The mutex is not modelled: calls are
made one after the other. -/
structure cache where
  /-- The field `lru *lru.Cache`, `none` for nil. -/
  lru : Option (lru.Cache ByteView)
  cacheBytes : Int

/-- The method `add` of `cache`; `none` when the call does not return. -/
def cache.add (fuel : Nat) (c : cache) (key : String) (value : ByteView) : Option cache :=
  let l : lru.Cache ByteView :=
    match c.lru with
    | none => lru.New c.cacheBytes false
    | some l => l
  match lru.Add fuel l key value with
  | some l1 => some { c with lru := some l1 }
  | none => none

/-- The method `get` of `cache`: the result `(value, ok)` and the cache after
the call. -/
def cache.get (c : cache) (key : String) : (ByteView × Bool) × cache :=
  match c.lru with
  | none => ((ByteView.mk [], false), c)
  | some l =>
    match lru.Get l key with
    | (some v, l1) => ((v, true), { c with lru := some l1 })
    | (none, l1) => ((ByteView.mk [], false), { c with lru := some l1 })

/-- The underlying `lru.Cache` of a `cache`: the one it holds, or the one the
first `add` will create when it holds none yet. -/
def cache.view (c : cache) : lru.Cache ByteView :=
  match c.lru with
  | none => lru.New c.cacheBytes false
  | some l => l

/-- The calls a client can make on a `cache`. -/
inductive cacheOp where
  | add (key : String) (value : ByteView)
  | get (key : String)

/-- A sequence of calls on a `cache`: the results of the `get` calls, in
order, and the cache at the end; `none` when a call does not return. -/
def cache.exec (fuel : Nat) : List cacheOp → cache → Option (List (ByteView × Bool) × cache)
  | [], c => some ([], c)
  | cacheOp.add key value :: ops, c =>
    match c.add fuel key value with
    | some c1 => cache.exec fuel ops c1
    | none => none
  | cacheOp.get key :: ops, c =>
    match cache.exec fuel ops (c.get key).2 with
    | some r => some ((c.get key).1 :: r.1, r.2)
    | none => none

/-- The same sequence of calls made as `Add` and `Get` directly on an
`lru.Cache`: the results `(value, ok)` of the `Get` calls and the cache at the
end. -/
def lruExec (fuel : Nat) :
    List cacheOp → lru.Cache ByteView → Option (List (Option ByteView) × lru.Cache ByteView)
  | [], l => some ([], l)
  | cacheOp.add key value :: ops, l =>
    match lru.Add fuel l key value with
    | some l1 => lruExec fuel ops l1
    | none => none
  | cacheOp.get key :: ops, l =>
    match lruExec fuel ops (lru.Get l key).2 with
    | some r => some ((lru.Get l key).1 :: r.1, r.2)
    | none => none

/-- How the facade hands on a result `(value, ok)` of `lru.Cache.Get`: the
value with `true`, or the zero `ByteView` with `false`. -/
def toResult : Option ByteView → ByteView × Bool
  | some v => (v, true)
  | none => (ByteView.mk [], false)

/-- The errors `Group.Get` returns: the one it makes itself with
`fmt.Errorf("key is required")`, and those of the `Getter`, which it hands on
as they are. -/
inductive Error (E : Type) where
  | keyIsRequired
  | getter (e : E)

/-- A Getter loads data for a key: the result `([]byte, error)` of its `Get`
method, with `none` for a nil error. -/
abbrev Getter (E : Type) := String → List UInt8 × Option E

/-- A Group is a cache namespace and associated data loaded spread over. Two
fields record what the group does to its surroundings: the keys with which the
getter has been invoked, oldest first, and the number of "[GeeCache] hit" lines
logged. -/
structure Group (E : Type) where
  name : String
  getter : Getter E
  mainCache : cache
  loads : List String
  hits : Nat

variable {E : Type}

/-- NewGroup create a new instance of Group (the getter given is not nil). -/
def NewGroup (name : String) (cacheBytes : Int) (getter : Getter E) : Group E :=
  { name := name
    getter := getter
    mainCache := { lru := none, cacheBytes := cacheBytes }
    loads := []
    hits := 0 }

/-- The method `populateCache`. -/
def Group.populateCache (fuel : Nat) (g : Group E) (key : String) (value : ByteView) :
    Option (Group E) :=
  match g.mainCache.add fuel key value with
  | some c => some { g with mainCache := c }
  | none => none

/-- The method `getLocally`: the result `(ByteView, error)` and the group
after the call; `none` when the call does not return. -/
def Group.getLocally (fuel : Nat) (g : Group E) (key : String) :
    Option ((ByteView × Option (Error E)) × Group E) :=
  let r := g.getter key
  let g1 : Group E := { g with loads := g.loads ++ [key] }
  match r.2 with
  | some err => some ((ByteView.mk [], some (Error.getter err)), g1)
  | none =>
    let value := ByteView.mk (cloneBytes r.1)
    match g1.populateCache fuel key value with
    | some g2 => some ((value, none), g2)
    | none => none

/-- The method `load`. -/
def Group.load (fuel : Nat) (g : Group E) (key : String) :
    Option ((ByteView × Option (Error E)) × Group E) :=
  g.getLocally fuel key

/-- Get value for a key from cache. -/
def Group.Get (fuel : Nat) (g : Group E) (key : String) :
    Option ((ByteView × Option (Error E)) × Group E) :=
  if key = "" then some ((ByteView.mk [], some Error.keyIsRequired), g)
  else
    match g.mainCache.get key with
    | ((v, true), c1) => some ((v, none), { g with mainCache := c1, hits := g.hits + 1 })
    | ((_, false), c1) => Group.load fuel { g with mainCache := c1 } key

/-- A sequence of `Get` calls on a group, each made when the previous one has
returned. -/
def Group.runGets (fuel : Nat) : List String → Group E → Option (Group E)
  | [], g => some g
  | key :: keys, g =>
    match g.Get fuel key with
    | some r => Group.runGets fuel keys r.2
    | none => none

/-- The states a group can be in: those produced from `NewGroup` by a finite
sequence of `Get` calls that all return. -/
def Group.Reachable (g : Group E) : Prop :=
  ∃ (name : String) (cacheBytes : Int) (getter : Getter E) (fuel : Nat) (keys : List String),
    Group.runGets fuel keys (NewGroup name cacheBytes getter) = some g

/-- A group of capacity 10 whose getter returns the single byte 1 for every
key. -/
def scores : Group Unit :=
  NewGroup "scores" 10 (fun _ => ([1], none))

/-- A group of capacity 10 whose getter fails for every key. -/
def failing : Group String :=
  NewGroup "failing" 10 (fun key => ([], some (key ++ " not exist")))

/-- The cache of a group is well formed and has the capacity of the group. -/
def Group.Inv (g : Group E) : Prop :=
  lru.Inv g.mainCache.view ∧ g.mainCache.view.maxBytes = g.mainCache.cacheBytes

end geecache

namespace byteview

/-- The memory that byte slices point into: the backing arrays, by address. -/
structure Mem where
  arrays : List (List UInt8)

/-- A slice `[]byte`: the address of its backing array and its length. Every
slice of this program starts at the beginning of its array. -/
structure Slice where
  ptr : Nat
  len : Nat

/-- The backing array at an address. -/
def Mem.array (m : Mem) (p : Nat) : List UInt8 :=
  m.arrays.getD p []

/-- The elements of a slice. -/
def Mem.read (m : Mem) (s : Slice) : List UInt8 :=
  (m.array s.ptr).take s.len

/-- `make([]byte, n)`: allocates a new array of `n` zero bytes. -/
def Mem.make (m : Mem) (n : Nat) : Mem × Slice :=
  ({ arrays := m.arrays ++ [List.replicate n 0] }, { ptr := m.arrays.length, len := n })

/-- `copy(dst, src)`: overwrites the first `min(len(dst), len(src))` elements
of `dst` with those of `src`. -/
def Mem.copy (m : Mem) (dst src : Slice) : Mem :=
  let n := min dst.len src.len
  { arrays := m.arrays.set dst.ptr ((m.read src).take n ++ (m.array dst.ptr).drop n) }

/-- The assignment `s[i] = x`; out of range it changes nothing. -/
def Mem.store (m : Mem) (s : Slice) (i : Nat) (x : UInt8) : Mem :=
  if i < s.len then { arrays := m.arrays.set s.ptr ((m.array s.ptr).set i x) } else m

/-- A ByteView holds an immutable view of bytes: here with its slice `b` as a
reference into memory. -/
structure ByteView where
  b : Slice

/-- Len returns the view's length. -/
def ByteView.Len (v : ByteView) : Int :=
  (v.b.len : Int)

/-- The function `cloneBytes`: the memory after the call and the slice
returned. -/
def cloneBytes (m : Mem) (b : Slice) : Mem × Slice :=
  let r := m.make b.len
  (r.1.copy r.2 b, r.2)

/-- ByteSlice returns a copy of the data as a byte slice. -/
def ByteView.ByteSlice (m : Mem) (v : ByteView) : Mem × Slice :=
  cloneBytes m v.b

/-- String returns the data as a string, making a copy if necessary: the bytes
of the string, a Go string being an immutable sequence of bytes. -/
def ByteView.String (m : Mem) (v : ByteView) : List UInt8 :=
  m.read v.b

end byteview

/-! ## The LRU cache: invariants -/

namespace lru

theorem int64_of_range {x : Int} (h1 : -9223372036854775808 ≤ x) (h2 : x < 9223372036854775808) :
    int64 x = x := by
  unfold int64; omega

theorem int64_zero : int64 0 = 0 := by
  unfold int64; omega

theorem int64_le_self (x : Int) (h : 0 ≤ x) : int64 x ≤ x := by
  unfold int64; omega

theorem int64_add_left (a b : Int) : int64 (int64 a + b) = int64 (a + b) := by
  unfold int64; omega

theorem int64_sub_left (a b : Int) : int64 (int64 a - b) = int64 (a - b) := by
  unfold int64; omega

theorem int64_sub_size (n x y : Int) :
    int64 (n - int64 (int64 x + int64 y)) = int64 (n - (x + y)) := by
  unfold int64; omega

theorem int64_add_size (n x y : Int) :
    int64 (n + int64 (int64 x + int64 y)) = int64 (n + (x + y)) := by
  unfold int64; omega

theorem int64_add_delta (n x y : Int) :
    int64 (n + int64 (int64 x - int64 y)) = int64 (n + (x - y)) := by
  unfold int64; omega

variable {V : Type}

theorem moveToFront_perm (l : List Nat) (e : Nat) : (MoveToFront l e).Perm l := by
  unfold MoveToFront
  split_ifs with h
  · exact (List.perm_cons_erase h).symm
  · exact List.Perm.refl l

theorem mem_moveToFront {l : List Nat} {e a : Nat} : a ∈ MoveToFront l e ↔ a ∈ l :=
  (moveToFront_perm l e).mem_iff

theorem moveToFront_of_mem {l : List Nat} {e : Nat} (h : e ∈ l) :
    MoveToFront l e = e :: l.erase e := by
  simp [MoveToFront, h]

theorem Get_hit {c : Cache V} {key : String} {ele : Nat} {kv : entry V}
    (h1 : c.cache.lookup key = some ele) (h2 : c.heap ele = some kv) :
    Get c key = (some kv.value, { c with ll := MoveToFront c.ll ele }) := by
  simp [Get, h1, h2]

theorem Get_miss {c : Cache V} {key : String} (h1 : c.cache.lookup key = none) :
    Get c key = (none, c) := by
  simp [Get, h1]

theorem Get_dangling {c : Cache V} {key : String} {ele : Nat}
    (h1 : c.cache.lookup key = some ele) (h2 : c.heap ele = none) :
    Get c key = (none, c) := by
  simp [Get, h1, h2]

theorem Get_fst_hit {c : Cache V} {key : String} {ele : Nat} {kv : entry V}
    (h1 : c.cache.lookup key = some ele) (h2 : c.heap ele = some kv) :
    (Get c key).1 = some kv.value := by
  rw [Get_hit h1 h2]

theorem Get_fst_miss {c : Cache V} {key : String} (h1 : c.cache.lookup key = none) :
    (Get c key).1 = none := by
  rw [Get_miss h1]

theorem map_eq_filterMap_some {α β : Type} (f : α → Option β) (l : List α)
    (h : ∀ a ∈ l, ∃ b, f a = some b) : l.map f = (l.filterMap f).map some := by
  induction l with
  | nil => rfl
  | cons x xs ih =>
    obtain ⟨b, hb⟩ := h x (List.mem_cons_self _ _)
    rw [List.map_cons, List.filterMap_cons_some hb, List.map_cons, hb,
      ih (fun a ha => h a (List.mem_cons_of_mem _ ha))]

theorem mem_listKeys {c : Cache V} {k : String} :
    k ∈ listKeys c ↔ ∃ a ∈ c.ll, ∃ kv, c.heap a = some kv ∧ kv.key = k := by
  simp only [listKeys, listEntries, List.mem_map, List.mem_filterMap]
  constructor
  · rintro ⟨kv, ⟨a, ha, hk⟩, rfl⟩
    exact ⟨a, ha, kv, hk, rfl⟩
  · rintro ⟨a, ha, kv, hk, rfl⟩
    exact ⟨kv, ⟨a, ha, hk⟩, rfl⟩

theorem Get_fields (c : Cache V) (key : String) :
    (Get c key).2.cache = c.cache ∧ (Get c key).2.heap = c.heap ∧
      (Get c key).2.nbytes = c.nbytes ∧ (Get c key).2.maxBytes = c.maxBytes := by
  cases h1 : c.cache.lookup key with
  | none => rw [Get_miss h1]; exact ⟨rfl, rfl, rfl, rfl⟩
  | some ele =>
    cases h2 : c.heap ele with
    | none => rw [Get_dangling h1 h2]; exact ⟨rfl, rfl, rfl, rfl⟩
    | some kv => rw [Get_hit h1 h2]; exact ⟨rfl, rfl, rfl, rfl⟩

theorem hist_New (maxBytes : Int) (onEvicted : Bool) :
    Hist (New maxBytes onEvicted : Cache V) (fun _ => none) := by
  intro k a kv hk
  simp [New] at hk

theorem hist_Get {c : Cache V} {f : String → Option V} (h : Hist c f) (key : String) :
    Hist (Get c key).2 f := by
  intro k a kv hk hh
  rw [(Get_fields c key).1] at hk
  rw [(Get_fields c key).2.1] at hh
  exact h k a kv hk hh

theorem lastAdded_isSome (adds : List (String × V)) (f : String → Option V) (k : String)
    (h : (f k).isSome ∨ k ∈ adds.map Prod.fst) :
    ((addOps adds).foldl recordAdd f k).isSome := by
  induction adds generalizing f with
  | nil =>
    rcases h with h | h
    · exact h
    · simp at h
  | cons kv adds ih =>
    show ((addOps adds).foldl recordAdd (recordAdd f (Op.add kv.1 kv.2)) k).isSome
    apply ih
    show (if k = kv.1 then some kv.2 else f k).isSome ∨ _
    by_cases hk : k = kv.1
    · left; rw [if_pos hk]; rfl
    · rw [if_neg hk]
      rcases h with h | h
      · exact Or.inl h
      · right
        simpa [hk] using h

variable [Value V]

theorem entryBytes_update_ne (heap : Nat → Option (entry V)) (e : Nat) (x : Option (entry V))
    {a : Nat} (h : a ≠ e) : entryBytes (Function.update heap e x) a = entryBytes heap a := by
  simp [entryBytes, Function.update_noteq h]

theorem sum_entryBytes_update (heap : Nat → Option (entry V)) (e : Nat) (x : Option (entry V))
    (l : List Nat) (h : e ∉ l) :
    (l.map (entryBytes (Function.update heap e x))).sum = (l.map (entryBytes heap)).sum := by
  congr 1
  apply List.map_congr_left
  intro a ha
  exact entryBytes_update_ne heap e x (fun hae => h (hae ▸ ha))

theorem sum_entryBytes_erase (heap : Nat → Option (entry V)) (l : List Nat) {e : Nat}
    (h : e ∈ l) :
    ((l.erase e).map (entryBytes heap)).sum = (l.map (entryBytes heap)).sum - entryBytes heap e := by
  have := List.sum_map_erase (entryBytes heap) h
  omega

theorem inv_New (maxBytes : Int) (onEvicted : Bool) : Inv (New maxBytes onEvicted : Cache V) where
  nodup := List.nodup_nil
  alloc := by simp [New]
  list_map := by simp [New]
  map_list := by simp [New]
  bytes := by
    show (0 : Int) = int64 (List.sum [])
    rw [List.sum_nil, int64_zero]

theorem inv_Get {c : Cache V} (h : Inv c) (key : String) : Inv (Get c key).2 := by
  cases h1 : c.cache.lookup key with
  | none => rw [Get_miss h1]; exact h
  | some ele =>
    cases h2 : c.heap ele with
    | none => rw [Get_dangling h1 h2]; exact h
    | some kv =>
      rw [Get_hit h1 h2]
      exact
        { nodup := (moveToFront_perm c.ll ele).nodup_iff.mpr h.nodup
          alloc := fun a ha => h.alloc a (mem_moveToFront.mp ha)
          list_map := fun a ha => h.list_map a (mem_moveToFront.mp ha)
          map_list := fun k a hk =>
            ⟨mem_moveToFront.mpr (h.map_list k a hk).1, (h.map_list k a hk).2⟩
          bytes := by
            show c.nbytes = int64 ((MoveToFront c.ll ele).map (entryBytes c.heap)).sum
            rw [((moveToFront_perm c.ll ele).map _).sum_eq]
            exact h.bytes }

theorem RemoveOldest_empty {c : Cache V} (h : c.ll = []) : RemoveOldest c = c := by
  simp [RemoveOldest, Back, h]

theorem RemoveOldest_dangling {c : Cache V} {ele : Nat} (h1 : Back c.ll = some ele)
    (h2 : c.heap ele = none) : RemoveOldest c = c := by
  simp [RemoveOldest, h1, h2]

theorem RemoveOldest_back {c : Cache V} {ele : Nat} {kv : entry V}
    (h1 : Back c.ll = some ele) (h2 : c.heap ele = some kv) :
    (RemoveOldest c).ll = c.ll.erase ele ∧
    (RemoveOldest c).cache = c.cache.erase kv.key ∧
    (RemoveOldest c).nbytes =
      int64 (c.nbytes - ((kv.key.utf8ByteSize : Int) + Value.Len kv.value)) ∧
    (RemoveOldest c).heap = c.heap ∧
    (RemoveOldest c).next = c.next ∧
    (RemoveOldest c).maxBytes = c.maxBytes ∧
    (RemoveOldest c).OnEvicted = c.OnEvicted := by
  simp only [RemoveOldest, h1, h2, Remove, int64_sub_size]
  split_ifs <;> simp

theorem entryBytes_of_heap {heap : Nat → Option (entry V)} {a : Nat} {kv : entry V}
    (h : heap a = some kv) :
    entryBytes heap a = (kv.key.utf8ByteSize : Int) + Value.Len kv.value := by
  simp [entryBytes, h]

theorem inv_RemoveOldest {c : Cache V} (h : Inv c) : Inv (RemoveOldest c) := by
  cases h1 : Back c.ll with
  | none =>
    have : c.ll = [] := by simpa [Back] using h1
    rw [RemoveOldest_empty this]; exact h
  | some ele =>
    cases h2 : c.heap ele with
    | none => rw [RemoveOldest_dangling h1 h2]; exact h
    | some kv =>
      obtain ⟨hll, hcache, hn, hheap, hnext, -, -⟩ := RemoveOldest_back h1 h2
      have hmem : ele ∈ c.ll := List.mem_of_getLast?_eq_some h1
      have hkey : c.cache.lookup kv.key = some ele := by
        obtain ⟨kv1, hk1, hk2⟩ := h.list_map ele hmem
        rw [h2] at hk1
        cases hk1
        exact hk2
      refine ⟨?_, ?_, ?_, ?_, ?_⟩
      · rw [hll]; exact h.nodup.erase ele
      · intro a ha
        rw [hll] at ha
        rw [hnext]
        exact h.alloc a (List.mem_of_mem_erase ha)
      · intro a ha
        rw [hll] at ha
        have hne : a ≠ ele := (h.nodup.mem_erase_iff.mp ha).1
        obtain ⟨kv1, hk1, hk2⟩ := h.list_map a (List.mem_of_mem_erase ha)
        refine ⟨kv1, by rw [hheap]; exact hk1, ?_⟩
        rw [hcache, AList.lookup_erase_ne]
        · exact hk2
        · intro hkk
          rw [hkk, hkey] at hk2
          exact hne (Option.some.inj hk2).symm
      · intro k a hk
        rw [hcache] at hk
        have hkne : k ≠ kv.key := by
          intro hkk
          rw [hkk, AList.lookup_erase] at hk
          cases hk
        rw [AList.lookup_erase_ne hkne] at hk
        obtain ⟨hm, kv1, hk1, hk2⟩ := h.map_list k a hk
        refine ⟨?_, kv1, by rw [hheap]; exact hk1, hk2⟩
        rw [hll]
        refine h.nodup.mem_erase_iff.mpr ⟨?_, hm⟩
        intro hae
        rw [hae, h2] at hk1
        cases hk1
        exact hkne hk2.symm
      · show (RemoveOldest c).nbytes =
          int64 (((RemoveOldest c).ll).map (entryBytes (RemoveOldest c).heap)).sum
        rw [hn, hll, hheap, sum_entryBytes_erase c.heap c.ll hmem, entryBytes_of_heap h2, h.bytes,
          int64_sub_left]
        rfl

theorem addEntry_hit {c : Cache V} {key : String} {ele : Nat} {kv : entry V} (value : V)
    (h1 : c.cache.lookup key = some ele) (h2 : c.heap ele = some kv) :
    addEntry c key value =
      { c with
        ll := MoveToFront c.ll ele
        nbytes := int64 (c.nbytes + (Value.Len value - Value.Len kv.value))
        heap := Function.update c.heap ele (some { kv with value := value }) } := by
  simp [addEntry, h1, h2, int64_add_delta]

theorem addEntry_dangling {c : Cache V} {key : String} {ele : Nat} (value : V)
    (h1 : c.cache.lookup key = some ele) (h2 : c.heap ele = none) :
    addEntry c key value = c := by
  simp [addEntry, h1, h2]

theorem addEntry_new {c : Cache V} {key : String} (value : V)
    (h1 : c.cache.lookup key = none) :
    addEntry c key value =
      { c with
        ll := c.next :: c.ll
        heap := Function.update c.heap c.next (some ⟨key, value⟩)
        next := c.next + 1
        cache := c.cache.insert key c.next
        nbytes := int64 (c.nbytes + ((key.utf8ByteSize : Int) + Value.Len value)) } := by
  simp [addEntry, h1, PushFront, int64_add_size]

theorem inv_addEntry {c : Cache V} (h : Inv c) (key : String) (value : V) :
    Inv (addEntry c key value) := by
  cases h1 : c.cache.lookup key with
  | none =>
    rw [addEntry_new value h1]
    have hfresh : c.next ∉ c.ll := fun hm => Nat.lt_irrefl _ (h.alloc _ hm)
    refine ⟨?_, ?_, ?_, ?_, ?_⟩
    · exact List.nodup_cons.mpr ⟨hfresh, h.nodup⟩
    · intro a ha
      rcases List.mem_cons.mp ha with rfl | ha
      · exact Nat.lt_succ_self _
      · exact Nat.lt_succ_of_lt (h.alloc a ha)
    · intro a ha
      rcases List.mem_cons.mp ha with rfl | ha
      · exact ⟨⟨key, value⟩, by simp, by simp⟩
      · have hne : a ≠ c.next := fun hae => hfresh (hae ▸ ha)
        obtain ⟨kv1, hk1, hk2⟩ := h.list_map a ha
        refine ⟨kv1, by simp [Function.update_noteq hne, hk1], ?_⟩
        have hkne : kv1.key ≠ key := by
          intro hkk
          rw [hkk, h1] at hk2
          cases hk2
        simpa [AList.lookup_insert_ne hkne] using hk2
    · intro k a hk
      by_cases hkk : k = key
      · subst hkk
        have : a = c.next := by simpa [AList.lookup_insert] using hk.symm
        subst this
        exact ⟨List.mem_cons_self _ _, ⟨k, value⟩, by simp, rfl⟩
      · have hk0 : c.cache.lookup k = some a := by
          simpa [AList.lookup_insert_ne hkk] using hk
        obtain ⟨hm, kv1, hk1, hk2⟩ := h.map_list k a hk0
        have hne : a ≠ c.next := fun hae => hfresh (hae ▸ hm)
        exact ⟨List.mem_cons_of_mem _ hm, kv1, by simp [Function.update_noteq hne, hk1], hk2⟩
    · show int64 (c.nbytes + ((key.utf8ByteSize : Int) + Value.Len value)) =
        int64 ((c.next :: c.ll).map
          (entryBytes (Function.update c.heap c.next (some ⟨key, value⟩)))).sum
      rw [List.map_cons, List.sum_cons, sum_entryBytes_update _ _ _ _ hfresh,
        entryBytes_of_heap (Function.update_same _ _ _), h.bytes, int64_add_left]
      show _ = int64 (_ + liveBytes c)
      simp only []
      congr 1
      omega
  | some ele =>
    cases h2 : c.heap ele with
    | none => rw [addEntry_dangling value h1 h2]; exact h
    | some kv =>
      rw [addEntry_hit value h1 h2]
      obtain ⟨hmem, kv0, hk0, hkey⟩ := h.map_list key ele h1
      rw [h2] at hk0
      cases hk0
      refine ⟨?_, ?_, ?_, ?_, ?_⟩
      · exact (moveToFront_perm c.ll ele).nodup_iff.mpr h.nodup
      · exact fun a ha => h.alloc a (mem_moveToFront.mp ha)
      · intro a ha
        have ha0 : a ∈ c.ll := mem_moveToFront.mp ha
        by_cases hae : a = ele
        · subst hae
          exact ⟨{ kv with value := value }, by simp, by rw [← hkey] at h1; exact h1⟩
        · obtain ⟨kv1, hk1, hk2⟩ := h.list_map a ha0
          exact ⟨kv1, by simp [Function.update_noteq hae, hk1], hk2⟩
      · intro k a hk
        obtain ⟨hm, kv1, hk1, hk2⟩ := h.map_list k a hk
        refine ⟨mem_moveToFront.mpr hm, ?_⟩
        by_cases hae : a = ele
        · subst hae
          rw [h2] at hk1
          cases hk1
          exact ⟨{ kv with value := value }, by simp, hk2⟩
        · exact ⟨kv1, by simp [Function.update_noteq hae, hk1], hk2⟩
      · show int64 (c.nbytes + (Value.Len value - Value.Len kv.value)) =
          int64 ((MoveToFront c.ll ele).map
            (entryBytes (Function.update c.heap ele (some { kv with value := value })))).sum
        rw [moveToFront_of_mem hmem, List.map_cons, List.sum_cons,
          sum_entryBytes_update _ _ _ _ (h.nodup.not_mem_erase),
          sum_entryBytes_erase _ _ hmem, entryBytes_of_heap (Function.update_same _ _ _),
          entryBytes_of_heap h2, h.bytes, int64_add_left]
        show _ = int64 (_ + (liveBytes c - _))
        simp only []
        congr 1
        omega

theorem inv_evictLoop {fuel : Nat} {c c1 : Cache V} (h : Inv c)
    (hr : evictLoop fuel c = some c1) : Inv c1 := by
  induction fuel generalizing c with
  | zero => simp [evictLoop] at hr
  | succ n ih =>
    rw [evictLoop] at hr
    split_ifs at hr with hg
    · exact ih (inv_RemoveOldest h) hr
    · cases hr; exact h

theorem inv_step {fuel : Nat} {c c1 : Cache V} (op : Op V) (h : Inv c)
    (hr : step fuel c op = some c1) : Inv c1 := by
  cases op with
  | add key value => exact inv_evictLoop (inv_addEntry h key value) hr
  | get key => cases hr; exact inv_Get h key
  | removeOldest => cases hr; exact inv_RemoveOldest h

theorem inv_run {fuel : Nat} {ops : List (Op V)} {c c1 : Cache V} (h : Inv c)
    (hr : run fuel ops c = some c1) : Inv c1 := by
  induction ops generalizing c with
  | nil => cases hr; exact h
  | cons op ops ih =>
    rw [run] at hr
    cases hs : step fuel c op with
    | none => rw [hs] at hr; cases hr
    | some c2 =>
      rw [hs] at hr
      exact ih (inv_step op h hs) hr

theorem inv_of_reachable {c : Cache V} (h : Reachable c) : Inv c := by
  obtain ⟨maxBytes, onEvicted, fuel, ops, hr⟩ := h
  exact inv_run (inv_New maxBytes onEvicted) hr

theorem RemoveOldest_maxBytes (c : Cache V) : (RemoveOldest c).maxBytes = c.maxBytes := by
  cases h1 : Back c.ll with
  | none => simp [RemoveOldest, h1]
  | some ele =>
    cases h2 : c.heap ele with
    | none => rw [RemoveOldest_dangling h1 h2]
    | some kv => exact (RemoveOldest_back h1 h2).2.2.2.2.2.1

theorem RemoveOldest_OnEvicted (c : Cache V) : (RemoveOldest c).OnEvicted = c.OnEvicted := by
  cases h1 : Back c.ll with
  | none => simp [RemoveOldest, h1]
  | some ele =>
    cases h2 : c.heap ele with
    | none => rw [RemoveOldest_dangling h1 h2]
    | some kv => exact (RemoveOldest_back h1 h2).2.2.2.2.2.2

theorem back_of_ne_nil {l : List Nat} (h : l ≠ []) : ∃ ele, Back l = some ele ∧ ele ∈ l := by
  cases hb : Back l with
  | none => exact absurd (by simpa [Back] using hb) h
  | some ele => exact ⟨ele, rfl, List.mem_of_getLast?_eq_some hb⟩

theorem RemoveOldest_length {c : Cache V} (h : Inv c) (hne : c.ll ≠ []) :
    (RemoveOldest c).ll.length + 1 = c.ll.length := by
  obtain ⟨ele, hb, hmem⟩ := back_of_ne_nil hne
  obtain ⟨kv, hk, -⟩ := h.list_map ele hmem
  rw [(RemoveOldest_back hb hk).1, List.length_erase_of_mem hmem]
  have : 0 < c.ll.length := List.length_pos_of_mem hmem
  omega

theorem evictLoop_post {fuel : Nat} {c c1 : Cache V} (hr : evictLoop fuel c = some c1) :
    ¬ (c1.maxBytes ≠ 0 ∧ c1.maxBytes < c1.nbytes) ∧ c1.maxBytes = c.maxBytes ∧
      c1.OnEvicted = c.OnEvicted := by
  induction fuel generalizing c with
  | zero => simp [evictLoop] at hr
  | succ n ih =>
    rw [evictLoop] at hr
    split_ifs at hr with hg
    · obtain ⟨h1, h2, h3⟩ := ih hr
      exact ⟨h1, by rw [h2, RemoveOldest_maxBytes], by rw [h3, RemoveOldest_OnEvicted]⟩
    · cases hr; exact ⟨hg, rfl, rfl⟩

theorem nbytes_eq_zero_of_nil {c : Cache V} (h : Inv c) (hnil : c.ll = []) : c.nbytes = 0 := by
  rw [h.bytes, liveBytes, hnil]; exact int64_zero

theorem evictLoop_returns (fuel : Nat) {c : Cache V} (h : Inv c) (hmax : 0 ≤ c.maxBytes)
    (hf : c.ll.length < fuel) :
    ∃ c1, evictLoop fuel c = some c1 ∧ c1.ll.length ≤ c.ll.length := by
  induction fuel generalizing c with
  | zero => exact absurd hf (Nat.not_lt_zero _)
  | succ n ih =>
    rw [evictLoop]
    split_ifs with hg
    · have hne : c.ll ≠ [] := by
        intro hnil
        have := nbytes_eq_zero_of_nil h hnil
        omega
      have hlen := RemoveOldest_length h hne
      obtain ⟨c1, h1, h2⟩ := ih (c := RemoveOldest c) (inv_RemoveOldest h)
        (by rw [RemoveOldest_maxBytes]; exact hmax) (by omega)
      exact ⟨c1, h1, by omega⟩
    · exact ⟨c, rfl, le_refl _⟩

theorem addEntry_maxBytes (c : Cache V) (key : String) (value : V) :
    (addEntry c key value).maxBytes = c.maxBytes := by
  cases h1 : c.cache.lookup key with
  | none => rw [addEntry_new value h1]
  | some ele =>
    cases h2 : c.heap ele with
    | none => rw [addEntry_dangling value h1 h2]
    | some kv => rw [addEntry_hit value h1 h2]

theorem addEntry_OnEvicted (c : Cache V) (key : String) (value : V) :
    (addEntry c key value).OnEvicted = c.OnEvicted := by
  cases h1 : c.cache.lookup key with
  | none => rw [addEntry_new value h1]
  | some ele =>
    cases h2 : c.heap ele with
    | none => rw [addEntry_dangling value h1 h2]
    | some kv => rw [addEntry_hit value h1 h2]

theorem addEntry_length_le (c : Cache V) (key : String) (value : V) :
    (addEntry c key value).ll.length ≤ c.ll.length + 1 := by
  cases h1 : c.cache.lookup key with
  | none => rw [addEntry_new value h1]; simp
  | some ele =>
    cases h2 : c.heap ele with
    | none => rw [addEntry_dangling value h1 h2]; omega
    | some kv =>
      rw [addEntry_hit value h1 h2]
      show (MoveToFront c.ll ele).length ≤ _
      rw [(moveToFront_perm c.ll ele).length_eq]; omega

/-- With a non-negative capacity `Add` returns once the bound on the loop
exceeds the number of entries, and the result obeys the capacity. -/
theorem Add_returns (fuel : Nat) {c : Cache V} (h : Inv c) (hmax : 0 ≤ c.maxBytes)
    (key : String) (value : V) (hf : c.ll.length + 1 < fuel) :
    ∃ c1, Add fuel c key value = some c1 ∧ Inv c1 ∧ c1.maxBytes = c.maxBytes ∧
      c1.OnEvicted = c.OnEvicted ∧
      c1.ll.length ≤ c.ll.length + 1 ∧ (c1.maxBytes = 0 ∨ c1.nbytes ≤ c1.maxBytes) := by
  have hi := inv_addEntry h key value
  have hl := addEntry_length_le c key value
  obtain ⟨c1, h1, h2⟩ := evictLoop_returns fuel hi
    (by rw [addEntry_maxBytes]; exact hmax) (by omega)
  obtain ⟨hg, hm, ho⟩ := evictLoop_post h1
  refine ⟨c1, h1, inv_evictLoop hi h1, by rw [hm, addEntry_maxBytes],
    by rw [ho, addEntry_OnEvicted], by omega, ?_⟩
  by_cases hz : c1.maxBytes = 0
  · exact Or.inl hz
  · right
    by_contra hlt
    exact hg ⟨hz, by omega⟩

theorem run_adds_returns {fuel : Nat} (adds : List (String × V)) {c : Cache V} (h : Inv c)
    (hmax : 0 ≤ c.maxBytes) (hf : c.ll.length + adds.length < fuel)
    (hcap : c.maxBytes = 0 ∨ c.nbytes ≤ c.maxBytes) :
    ∃ c1, run fuel (addOps adds) c = some c1 ∧ Inv c1 ∧ c1.maxBytes = c.maxBytes ∧
      (c1.maxBytes = 0 ∨ c1.nbytes ≤ c1.maxBytes) := by
  induction adds generalizing c with
  | nil => exact ⟨c, rfl, h, rfl, hcap⟩
  | cons kv adds ih =>
    simp only [List.length_cons] at hf
    obtain ⟨c1, h1, hi, hm, -, hl, hc⟩ := Add_returns fuel h hmax kv.1 kv.2 (by omega)
    obtain ⟨c2, h2, hi2, hm2, hc2⟩ := ih hi (by rw [hm]; exact hmax) (by omega) hc
    refine ⟨c2, ?_, hi2, by rw [hm2, hm], hc2⟩
    show (step fuel c (Op.add kv.1 kv.2)).bind (run fuel (addOps adds)) = some c2
    rw [show step fuel c (Op.add kv.1 kv.2) = Add fuel c kv.1 kv.2 from rfl, h1]
    exact h2

theorem Add_no_evict {c : Cache V} {key : String} {value : V} (n : Nat)
    (hg : ¬ ((addEntry c key value).maxBytes ≠ 0 ∧
      (addEntry c key value).maxBytes < (addEntry c key value).nbytes)) :
    Add (n + 1) c key value = some (addEntry c key value) := by
  rw [Add, evictLoop, if_neg hg]

theorem Add_evict_once {c : Cache V} {key : String} {value : V} (n : Nat)
    (hg : (addEntry c key value).maxBytes ≠ 0 ∧
      (addEntry c key value).maxBytes < (addEntry c key value).nbytes)
    (hg1 : ¬ ((RemoveOldest (addEntry c key value)).maxBytes ≠ 0 ∧
      (RemoveOldest (addEntry c key value)).maxBytes <
        (RemoveOldest (addEntry c key value)).nbytes)) :
    Add (n + 2) c key value = some (RemoveOldest (addEntry c key value)) := by
  rw [Add, evictLoop, if_pos hg, evictLoop, if_neg hg1]

theorem utf8ByteSize_go_eq_zero (l : List Char) (h : String.utf8ByteSize.go l = 0) : l = [] := by
  cases l with
  | nil => rfl
  | cons c cs =>
    have := Char.utf8Size_pos c
    simp only [String.utf8ByteSize.go] at h
    omega

theorem utf8ByteSize_eq_zero (s : String) (h : s.utf8ByteSize = 0) : s = "" := by
  cases s with
  | mk l =>
    have : l = [] := utf8ByteSize_go_eq_zero l h
    subst this
    rfl

theorem utf8ByteSize_pos_of_ne {a b : String} (hab : a ≠ b)
    (hl : a.utf8ByteSize = b.utf8ByteSize) : 0 < a.utf8ByteSize := by
  by_contra h
  have ha : a.utf8ByteSize = 0 := by omega
  have hb : b.utf8ByteSize = 0 := by omega
  exact hab ((utf8ByteSize_eq_zero a ha).trans (utf8ByteSize_eq_zero b hb).symm)

/-- C2 (LRU order), as amended. For pairwise distinct keys `a`, `b`, `c` of
equal length and values of equal `Len() ≥ 0` such that three entries of that
size `len(key) + Len()` together stay below `2^63`, on an empty cache whose
`maxBytes` is the size of two such entries, the calls `Add(a)`, `Add(b)`,
`Get(a)`, `Add(c)` all return (the bound on the eviction loop being at least
2) and leave a cache with `Len() = 2` in which `Get` finds `a` and `c` and does
not find `b`, whose key has left the map. -/
theorem lru_order (a b c : String) (va vb vc : V) (hab : a ≠ b) (hac : a ≠ c) (hbc : b ≠ c)
    (hl1 : a.utf8ByteSize = b.utf8ByteSize) (hl2 : b.utf8ByteSize = c.utf8ByteSize)
    (hv1 : Value.Len va = Value.Len vb) (hv2 : Value.Len vb = Value.Len vc)
    (hlen : 0 ≤ Value.Len va)
    (hbound : 3 * ((a.utf8ByteSize : Int) + Value.Len va) < 9223372036854775808)
    (onEvicted : Bool) (fuel : Nat) (hfuel : 2 ≤ fuel) :
    ∃ c1 c2 c3 : Cache V,
      Add fuel (New (2 * ((a.utf8ByteSize : Int) + Value.Len va)) onEvicted) a va = some c1 ∧
      Add fuel c1 b vb = some c2 ∧
      (Get c2 a).1 = some va ∧
      Add fuel (Get c2 a).2 c vc = some c3 ∧
      Len c3 = 2 ∧ (Get c3 a).1 = some va ∧ (Get c3 c).1 = some vc ∧
      (Get c3 b).1 = none ∧ c3.cache.lookup b = none := by
  obtain ⟨n, rfl⟩ : ∃ n, fuel = n + 2 := ⟨fuel - 2, by omega⟩
  have hba := hab.symm
  have hca := hac.symm
  have hcb := hbc.symm
  have hl1i : (a.utf8ByteSize : Int) = b.utf8ByteSize := by rw [hl1]
  have hl2i : (b.utf8ByteSize : Int) = c.utf8ByteSize := by rw [hl2]
  have hpos : 0 < (a.utf8ByteSize : Int) + Value.Len va := by
    have := utf8ByteSize_pos_of_ne hab hl1
    omega
  have hsb : (b.utf8ByteSize : Int) + Value.Len vb = (a.utf8ByteSize : Int) + Value.Len va := by
    omega
  have hsc : (c.utf8ByteSize : Int) + Value.Len vc = (a.utf8ByteSize : Int) + Value.Len va := by
    omega
  have e1 : int64 (0 + ((a.utf8ByteSize : Int) + Value.Len va)) =
      (a.utf8ByteSize : Int) + Value.Len va :=
    (int64_of_range (by omega) (by omega)).trans (Int.zero_add _)
  have e2 : int64 ((a.utf8ByteSize : Int) + Value.Len va + ((a.utf8ByteSize : Int) + Value.Len va)) =
      (a.utf8ByteSize : Int) + Value.Len va + ((a.utf8ByteSize : Int) + Value.Len va) :=
    int64_of_range (by omega) (by omega)
  have e3 : int64 ((a.utf8ByteSize : Int) + Value.Len va + ((a.utf8ByteSize : Int) + Value.Len va) +
      ((a.utf8ByteSize : Int) + Value.Len va)) =
      (a.utf8ByteSize : Int) + Value.Len va + ((a.utf8ByteSize : Int) + Value.Len va) +
      ((a.utf8ByteSize : Int) + Value.Len va) := int64_of_range (by omega) (by omega)
  have e4 : int64 ((a.utf8ByteSize : Int) + Value.Len va + ((a.utf8ByteSize : Int) + Value.Len va) +
      ((a.utf8ByteSize : Int) + Value.Len va) - ((a.utf8ByteSize : Int) + Value.Len va)) =
      (a.utf8ByteSize : Int) + Value.Len va + ((a.utf8ByteSize : Int) + Value.Len va) :=
    (congrArg int64 (by omega)).trans e2
  let e0 : AList (fun _ : String => Nat) := ∅
  let h0 : Nat → Option (entry V) := fun _ => none
  -- after Add(a)
  have s1 : addEntry (New (2 * ((a.utf8ByteSize : Int) + Value.Len va)) onEvicted) a va =
      { maxBytes := 2 * ((a.utf8ByteSize : Int) + Value.Len va)
        nbytes := int64 (0 + ((a.utf8ByteSize : Int) + Value.Len va))
        ll := [0]
        cache := e0.insert a 0
        OnEvicted := onEvicted
        heap := Function.update h0 0 (some ⟨a, va⟩)
        next := 1
        calls := [] } :=
    addEntry_new va (AList.lookup_empty a)
  -- after Add(b)
  have s2 : addEntry (addEntry (New (2 * ((a.utf8ByteSize : Int) + Value.Len va)) onEvicted) a va)
      b vb =
      { maxBytes := 2 * ((a.utf8ByteSize : Int) + Value.Len va)
        nbytes := int64 (int64 (0 + ((a.utf8ByteSize : Int) + Value.Len va)) +
          ((b.utf8ByteSize : Int) + Value.Len vb))
        ll := [1, 0]
        cache := (e0.insert a 0).insert b 1
        OnEvicted := onEvicted
        heap := Function.update (Function.update h0 0 (some ⟨a, va⟩)) 1 (some ⟨b, vb⟩)
        next := 2
        calls := [] } := by
    rw [s1]
    exact addEntry_new vb (by
      show AList.lookup b (e0.insert a 0) = none
      rw [AList.lookup_insert_ne hba]; exact AList.lookup_empty b)
  -- after Get(a)
  have s3 : Get (addEntry (addEntry (New (2 * ((a.utf8ByteSize : Int) + Value.Len va)) onEvicted)
      a va) b vb) a = (some va,
      { maxBytes := 2 * ((a.utf8ByteSize : Int) + Value.Len va)
        nbytes := int64 (int64 (0 + ((a.utf8ByteSize : Int) + Value.Len va)) +
          ((b.utf8ByteSize : Int) + Value.Len vb))
        ll := [0, 1]
        cache := (e0.insert a 0).insert b 1
        OnEvicted := onEvicted
        heap := Function.update (Function.update h0 0 (some ⟨a, va⟩)) 1 (some ⟨b, vb⟩)
        next := 2
        calls := [] }) := by
    rw [s2]
    exact @Get_hit V _ _ 0 ⟨a, va⟩
      (by
        show AList.lookup a ((e0.insert a 0).insert b 1) = some 0
        rw [AList.lookup_insert_ne hab, AList.lookup_insert])
      (by
        show Function.update (Function.update h0 0 (some ⟨a, va⟩)) 1 (some ⟨b, vb⟩) 0 = _
        rw [Function.update_noteq (by decide), Function.update_same])
  -- after the first half of Add(c)
  have s4 : addEntry (Get (addEntry (addEntry
      (New (2 * ((a.utf8ByteSize : Int) + Value.Len va)) onEvicted) a va) b vb) a).2 c vc =
      { maxBytes := 2 * ((a.utf8ByteSize : Int) + Value.Len va)
        nbytes := int64 (int64 (int64 (0 + ((a.utf8ByteSize : Int) + Value.Len va)) +
          ((b.utf8ByteSize : Int) + Value.Len vb)) + ((c.utf8ByteSize : Int) + Value.Len vc))
        ll := [2, 0, 1]
        cache := ((e0.insert a 0).insert b 1).insert c 2
        OnEvicted := onEvicted
        heap := Function.update (Function.update (Function.update h0 0 (some ⟨a, va⟩)) 1
          (some ⟨b, vb⟩)) 2 (some ⟨c, vc⟩)
        next := 3
        calls := [] } := by
    rw [s3]
    exact addEntry_new vc (by
      show AList.lookup c ((e0.insert a 0).insert b 1) = none
      rw [AList.lookup_insert_ne hcb, AList.lookup_insert_ne hca]; exact AList.lookup_empty c)
  -- the eviction of b
  obtain ⟨r1, r2, r3, r4, -, r6, -⟩ := @RemoveOldest_back V _
    (addEntry (Get (addEntry (addEntry
      (New (2 * ((a.utf8ByteSize : Int) + Value.Len va)) onEvicted) a va) b vb) a).2 c vc) 1 ⟨b, vb⟩
    (by rw [s4]; rfl)
    (by
      rw [s4]
      show Function.update (Function.update (Function.update h0 0 (some ⟨a, va⟩)) 1
          (some ⟨b, vb⟩)) 2 (some ⟨c, vc⟩) 1 = _
      rw [Function.update_noteq (by decide), Function.update_same])
  refine ⟨_, _, _, Add_no_evict _ ?_, Add_no_evict _ ?_, ?_, Add_evict_once _ ?_ ?_, ?_⟩
  · rw [s1]; simp only []; rw [e1]; omega
  · rw [s2]; simp only []; rw [hsb, e1, e2]; omega
  · rw [s3]
  · rw [s4]; simp only []; rw [hsb, hsc, e1, e2, e3]; omega
  · rw [r3, r6, s4]; simp only []; rw [hsb, hsc, e1, e2, e3, e4]; omega
  · refine ⟨?_, ?_, ?_, ?_, ?_⟩
    · rw [Len, r1, s4]; rfl
    · refine @Get_fst_hit V _ _ 0 ⟨a, va⟩ ?_ ?_
      · rw [r2, s4]
        show AList.lookup a (AList.erase b (((e0.insert a 0).insert b 1).insert c 2)) = some 0
        rw [AList.lookup_erase_ne hab, AList.lookup_insert_ne hac,
          AList.lookup_insert_ne hab, AList.lookup_insert]
      · rw [r4, s4]
        show Function.update (Function.update (Function.update h0 0 (some ⟨a, va⟩)) 1
          (some ⟨b, vb⟩)) 2 (some ⟨c, vc⟩) 0 = _
        rw [Function.update_noteq (by decide), Function.update_noteq (by decide),
          Function.update_same]
    · refine @Get_fst_hit V _ _ 2 ⟨c, vc⟩ ?_ ?_
      · rw [r2, s4]
        show AList.lookup c (AList.erase b (((e0.insert a 0).insert b 1).insert c 2)) = some 2
        rw [AList.lookup_erase_ne hcb, AList.lookup_insert]
      · rw [r4, s4]
        show Function.update (Function.update (Function.update h0 0 (some ⟨a, va⟩)) 1
          (some ⟨b, vb⟩)) 2 (some ⟨c, vc⟩) 2 = _
        rw [Function.update_same]
    · exact Get_fst_miss (by rw [r2, AList.lookup_erase])
    · rw [r2, AList.lookup_erase]

/-- Witness of C2 as amended: keys "a", "b", "c" with one-byte values. -/
theorem lru_order_witness :
    ∃ c1 c2 c3 : Cache ByteView,
      Add 2 (New (2 * ((("a" : String).utf8ByteSize : Int) + Value.Len (ByteView.mk [1]))) false)
        "a" (ByteView.mk [1]) = some c1 ∧
      Add 2 c1 "b" (ByteView.mk [2]) = some c2 ∧
      (Get c2 "a").1 = some (ByteView.mk [1]) ∧
      Add 2 (Get c2 "a").2 "c" (ByteView.mk [3]) = some c3 ∧
      Len c3 = 2 ∧ (Get c3 "a").1 = some (ByteView.mk [1]) ∧
      (Get c3 "c").1 = some (ByteView.mk [3]) ∧
      (Get c3 "b").1 = none ∧ c3.cache.lookup "b" = none :=
  lru_order "a" "b" "c" (ByteView.mk [1]) (ByteView.mk [2]) (ByteView.mk [3])
    (by decide) (by decide) (by decide) (by decide) (by decide) (by decide) (by decide)
    (by decide) (by decide) false 2 (by decide)

/-- C2 fails as stated: with keys "a", "b", "c" and values of
`Len() = 4000000000000000000` the capacity of two entries is
`8000000000000000002`, which an `int64` holds; the third `Add` brings `nbytes`
to `12000000000000000003`, which wraps to a negative number, so the loop does
not run and the cache holds three entries, `b` among them. -/
theorem lru_order_counterexample :
    (run 2 [Op.add "a" (Sized.mk 4000000000000000000), Op.add "b" (Sized.mk 4000000000000000000),
        Op.get "a", Op.add "c" (Sized.mk 4000000000000000000)]
      (New (2 * ((("a" : String).utf8ByteSize : Int) +
        Value.Len (Sized.mk 4000000000000000000))) false)).map
      (fun c3 => (c3.maxBytes, c3.nbytes, Len c3, (Get c3 "b").1)) =
      some (8000000000000000002, -6446744073709551613, 3,
        some (Sized.mk 4000000000000000000)) := by
  decide

theorem map_heap_eq {c : Cache V} (h : Inv c) :
    c.ll.map c.heap = (listEntries c).map some :=
  map_eq_filterMap_some c.heap c.ll (fun a ha => by
    obtain ⟨kv, hk, -⟩ := h.list_map a ha
    exact ⟨kv, hk⟩)

theorem length_listEntries {c : Cache V} (h : Inv c) : (listEntries c).length = c.ll.length := by
  have := congrArg List.length (map_heap_eq h)
  simpa using this.symm

theorem mem_listKeys_iff_mem_cache {c : Cache V} (h : Inv c) (k : String) :
    k ∈ listKeys c ↔ k ∈ c.cache.keys := by
  rw [mem_listKeys, ← AList.mem_keys, ← AList.lookup_isSome]
  constructor
  · rintro ⟨a, ha, kv, hk, rfl⟩
    obtain ⟨kv1, hk1, hk2⟩ := h.list_map a ha
    rw [hk] at hk1
    cases hk1
    rw [hk2]; rfl
  · intro hs
    obtain ⟨a, ha⟩ := Option.isSome_iff_exists.mp hs
    obtain ⟨hm, kv, hk, hkey⟩ := h.map_list k a ha
    exact ⟨a, hm, kv, hk, hkey⟩

theorem nodup_listKeys {c : Cache V} (h : Inv c) : (listKeys c).Nodup := by
  have hinj : ∀ x ∈ c.ll, ∀ y ∈ c.ll,
      (c.heap x).map entry.key = (c.heap y).map entry.key → x = y := by
    intro x hx y hy hxy
    obtain ⟨kx, hkx, hlx⟩ := h.list_map x hx
    obtain ⟨ky, hky, hly⟩ := h.list_map y hy
    rw [hkx, hky] at hxy
    have hk : kx.key = ky.key := by simpa using hxy
    rw [hk, hly] at hlx
    exact (Option.some.inj hlx).symm
  have h1 : (c.ll.map (fun a => (c.heap a).map entry.key)).Nodup :=
    List.Nodup.map_on hinj h.nodup
  have h2 : c.ll.map (fun a => (c.heap a).map entry.key) = (listKeys c).map some := by
    have := congrArg (List.map (Option.map entry.key)) (map_heap_eq h)
    simpa [listKeys, List.map_map, Function.comp_def] using this
  rw [h2] at h1
  exact List.Nodup.of_map _ h1

theorem listKeys_perm {c : Cache V} (h : Inv c) : (listKeys c).Perm c.cache.keys :=
  (List.perm_ext_iff_of_nodup (nodup_listKeys h) c.cache.keys_nodup).mpr
    (mem_listKeys_iff_mem_cache h)

theorem Len_eq_card_keys {c : Cache V} (h : Inv c) : Len c = c.cache.keys.length := by
  rw [← (listKeys_perm h).length_eq, listKeys, List.length_map, length_listEntries h]
  rfl

theorem RemoveOldest_heap (c : Cache V) : (RemoveOldest c).heap = c.heap := by
  cases h1 : Back c.ll with
  | none => simp [RemoveOldest, h1]
  | some ele =>
    cases h2 : c.heap ele with
    | none => rw [RemoveOldest_dangling h1 h2]
    | some kv => exact (RemoveOldest_back h1 h2).2.2.2.1

theorem RemoveOldest_lookup (c : Cache V) {k : String} {a : Nat}
    (h : (RemoveOldest c).cache.lookup k = some a) : c.cache.lookup k = some a := by
  cases h1 : Back c.ll with
  | none =>
    have : c.ll = [] := by simpa [Back] using h1
    rwa [RemoveOldest_empty this] at h
  | some ele =>
    cases h2 : c.heap ele with
    | none => rwa [RemoveOldest_dangling h1 h2] at h
    | some kv =>
      rw [(RemoveOldest_back h1 h2).2.1] at h
      by_cases hk : k = kv.key
      · rw [hk, AList.lookup_erase] at h
        cases h
      · rwa [AList.lookup_erase_ne hk] at h

theorem hist_RemoveOldest {c : Cache V} {f : String → Option V} (h : Hist c f) :
    Hist (RemoveOldest c) f := by
  intro k a kv hk hh
  rw [RemoveOldest_heap] at hh
  exact h k a kv (RemoveOldest_lookup c hk) hh

theorem hist_addEntry {c : Cache V} {f : String → Option V} (hi : Inv c) (h : Hist c f)
    (key : String) (value : V) :
    Hist (addEntry c key value) (recordAdd f (Op.add key value)) := by
  intro k a kv hk hh
  show (if k = key then some value else f k) = some kv.value
  cases h1 : c.cache.lookup key with
  | none =>
    rw [addEntry_new value h1] at hk hh
    simp only [] at hk hh
    by_cases hkk : k = key
    · subst hkk
      rw [AList.lookup_insert] at hk
      cases hk
      rw [Function.update_same] at hh
      cases hh
      simp
    · rw [AList.lookup_insert_ne hkk] at hk
      have hne : a ≠ c.next := fun hae =>
        Nat.lt_irrefl _ (hae ▸ hi.alloc a (hi.map_list k a hk).1)
      rw [Function.update_noteq hne] at hh
      rw [if_neg hkk]
      exact h k a kv hk hh
  | some ele =>
    cases h2 : c.heap ele with
    | none =>
      rw [addEntry_dangling value h1 h2] at hk hh
      obtain ⟨-, kv0, hk0, -⟩ := hi.map_list key ele h1
      rw [h2] at hk0
      cases hk0
    | some kv0 =>
      rw [addEntry_hit value h1 h2] at hk hh
      simp only [] at hk hh
      obtain ⟨-, kv1, hk1, hkey⟩ := hi.map_list key ele h1
      rw [h2] at hk1
      cases hk1
      by_cases hkk : k = key
      · subst hkk
        rw [h1] at hk
        cases hk
        rw [Function.update_same] at hh
        cases hh
        simp
      · have hne : a ≠ ele := by
          intro hae
          obtain ⟨-, kv2, hk2, hkey2⟩ := hi.map_list k a hk
          rw [hae, h2] at hk2
          cases hk2
          exact hkk (hkey2.symm.trans hkey)
        rw [Function.update_noteq hne] at hh
        rw [if_neg hkk]
        exact h k a kv hk hh

theorem hist_evictLoop {fuel : Nat} {c c1 : Cache V} {f : String → Option V} (h : Hist c f)
    (hr : evictLoop fuel c = some c1) : Hist c1 f := by
  induction fuel generalizing c with
  | zero => simp [evictLoop] at hr
  | succ n ih =>
    rw [evictLoop] at hr
    split_ifs at hr with hg
    · exact ih (hist_RemoveOldest h) hr
    · cases hr; exact h

theorem hist_step {fuel : Nat} {c c1 : Cache V} {f : String → Option V} (op : Op V)
    (hi : Inv c) (h : Hist c f) (hr : step fuel c op = some c1) : Hist c1 (recordAdd f op) := by
  cases op with
  | add key value => exact hist_evictLoop (hist_addEntry hi h key value) hr
  | get key => cases hr; exact hist_Get h key
  | removeOldest => cases hr; exact hist_RemoveOldest h

theorem hist_run {fuel : Nat} {ops : List (Op V)} {c c1 : Cache V} {f : String → Option V}
    (hi : Inv c) (h : Hist c f) (hr : run fuel ops c = some c1) :
    Hist c1 (ops.foldl recordAdd f) := by
  induction ops generalizing c f with
  | nil => cases hr; exact h
  | cons op ops ih =>
    rw [run] at hr
    cases hs : step fuel c op with
    | none => rw [hs] at hr; cases hr
    | some c2 =>
      rw [hs] at hr
      exact ih (inv_step op hi hs) (hist_step op hi h hs) hr

theorem RemoveOldest_ll {c : Cache V} (h : Inv c) : (RemoveOldest c).ll = c.ll.dropLast := by
  by_cases hne : c.ll = []
  · rw [RemoveOldest_empty hne, hne]; rfl
  · obtain ⟨ele, hb, hmem⟩ := back_of_ne_nil hne
    obtain ⟨kv, hk, -⟩ := h.list_map ele hmem
    rw [(RemoveOldest_back hb hk).1]
    have hsplit : c.ll.dropLast ++ [ele] = c.ll := List.dropLast_append_getLast? ele hb
    have hnd := h.nodup
    rw [← hsplit] at hnd
    have hnot : ele ∉ c.ll.dropLast := fun hm =>
      (List.nodup_append.mp hnd).2.2 hm (List.mem_singleton_self ele)
    conv_lhs => rw [← hsplit]
    rw [List.erase_append_right _ hnot]
    simp

theorem iterate_RemoveOldest_front (n : Nat) {c : Cache V} (h : Inv c) {ele : Nat}
    {rest : List Nat} (hll : c.ll = ele :: rest) (hn : n ≤ rest.length) :
    Inv (RemoveOldest^[n] c) ∧ (RemoveOldest^[n] c).heap = c.heap ∧
      ele ∈ (RemoveOldest^[n] c).ll := by
  induction n generalizing c rest with
  | zero => exact ⟨h, rfl, by rw [Function.iterate_zero, id, hll]; exact List.mem_cons_self _ _⟩
  | succ n ih =>
    rw [Function.iterate_succ_apply]
    have hrest : rest ≠ [] := by
      intro hnil
      rw [hnil] at hn
      exact absurd hn (by simp)
    have hll1 : (RemoveOldest c).ll = ele :: rest.dropLast := by
      rw [RemoveOldest_ll h, hll, List.dropLast_cons_of_ne_nil hrest]
    obtain ⟨h1, h2, h3⟩ := ih (inv_RemoveOldest h) hll1
      (by rw [List.length_dropLast]; omega)
    exact ⟨h1, by rw [h2, RemoveOldest_heap], h3⟩

/-- C4 (`Get`). In a state `c` reached from `New` by a sequence `ops` of calls:
`Get(key)` misses, returning no value and leaving the cache as it is, when
`key` is not in the map; and when `key` is in the map it returns the value
given by the most recent `Add` for `key` in `ops`, the only change to the cache
being that the node of `key` is now at the front of the recency list with all
other nodes in the order they had. That entry is then the last one
`RemoveOldest` reaches: it is still in the map after any number of
`RemoveOldest` calls smaller than `Len()`. -/
theorem Get_spec (maxBytes : Int) (onEvicted : Bool) (fuel : Nat) (ops : List (Op V))
    (c : Cache V) (key : String) (hr : run fuel ops (New maxBytes onEvicted) = some c) :
    (key ∉ c.cache → Get c key = (none, c)) ∧
    (key ∈ c.cache → ∃ ele v, c.cache.lookup key = some ele ∧ ele ∈ c.ll ∧
      lastAdded ops key = some v ∧
      Get c key = (some v, { c with ll := ele :: c.ll.filter (fun x => x != ele) }) ∧
      ∀ n, n < Len c → key ∈ (RemoveOldest^[n] (Get c key).2).cache) := by
  have hi : Inv c := inv_run (inv_New maxBytes onEvicted) hr
  have hh : Hist c (lastAdded ops) := hist_run (inv_New maxBytes onEvicted)
    (hist_New maxBytes onEvicted) hr
  constructor
  · intro hk
    exact Get_miss (AList.lookup_eq_none.mpr hk)
  · intro hk
    obtain ⟨ele, hl⟩ := Option.isSome_iff_exists.mp (AList.lookup_isSome.mpr hk)
    obtain ⟨hmem, kv, hheap, hkey⟩ := hi.map_list key ele hl
    have hget : Get c key = (some kv.value, { c with ll := ele :: c.ll.erase ele }) := by
      rw [Get_hit hl hheap, moveToFront_of_mem hmem]
    refine ⟨ele, kv.value, hl, hmem, hh key ele kv hl hheap, ?_, ?_⟩
    · rw [hget, hi.nodup.erase_eq_filter]
    · intro n hn
      have hi2 : Inv (Get c key).2 := inv_Get hi key
      have hlen : (c.ll.erase ele).length + 1 = c.ll.length := by
        rw [List.length_erase_of_mem hmem]
        have : 0 < c.ll.length := List.length_pos_of_mem hmem
        omega
      obtain ⟨h1, h2, h3⟩ := @iterate_RemoveOldest_front V _ n _ hi2 ele
        (c.ll.erase ele) (by rw [hget]) (by rw [Len] at hn; omega)
      obtain ⟨kv1, hk1, hk2⟩ := h1.list_map ele h3
      rw [h2, (Get_fields c key).2.1, hheap] at hk1
      cases hk1
      rw [hkey] at hk2
      exact AList.lookup_isSome.mp (by rw [hk2]; rfl)

theorem mem_addEntry (c : Cache V) (key : String) (value : V) (k : String) :
    k ∈ (addEntry c key value).cache ↔ k = key ∨ k ∈ c.cache := by
  cases h1 : c.cache.lookup key with
  | none =>
    rw [addEntry_new value h1]
    exact AList.mem_insert _
  | some ele =>
    have hkey : key ∈ c.cache := AList.lookup_isSome.mp (by rw [h1]; rfl)
    cases h2 : c.heap ele with
    | none =>
      rw [addEntry_dangling value h1 h2]
      exact ⟨Or.inr, fun hk => hk.elim (fun e => e ▸ hkey) id⟩
    | some kv =>
      rw [addEntry_hit value h1 h2]
      exact ⟨Or.inr, fun hk => hk.elim (fun e => e ▸ hkey) id⟩

theorem run_adds_unbounded (n : Nat) (adds : List (String × V)) {c : Cache V} (h : Inv c)
    (hmax : c.maxBytes = 0) :
    ∃ c1, run (n + 1) (addOps adds) c = some c1 ∧ c1.maxBytes = 0 ∧
      ∀ k, k ∈ c1.cache ↔ k ∈ c.cache ∨ k ∈ adds.map Prod.fst := by
  induction adds generalizing c with
  | nil => exact ⟨c, rfl, hmax, fun k => by simp⟩
  | cons kv adds ih =>
    have hm : (addEntry c kv.1 kv.2).maxBytes = 0 := by rw [addEntry_maxBytes, hmax]
    have ha : Add (n + 1) c kv.1 kv.2 = some (addEntry c kv.1 kv.2) :=
      Add_no_evict n (fun hg => hg.1 hm)
    obtain ⟨c1, h1, h2, h3⟩ := ih (inv_addEntry h kv.1 kv.2) hm
    refine ⟨c1, ?_, h2, ?_⟩
    · show (step (n + 1) c (Op.add kv.1 kv.2)).bind (run (n + 1) (addOps adds)) = some c1
      rw [show step (n + 1) c (Op.add kv.1 kv.2) = Add (n + 1) c kv.1 kv.2 from rfl, ha]
      exact h1
    · intro k
      rw [h3, mem_addEntry c]
      simp only [List.map_cons, List.mem_cons]
      tauto

/-- C7 (unbounded mode). On a cache created with `maxBytes = 0` every finite
sequence of `Add` calls returns (for every positive bound on the loop) and no
entry is lost: `Get` finds every key that was added, with the value of the most
recent `Add` for it, and `Len()` is the number of distinct keys added. -/
theorem unbounded_keeps_all (onEvicted : Bool) (adds : List (String × V)) (n : Nat) :
    ∃ c : Cache V, run (n + 1) (addOps adds) (New 0 onEvicted) = some c ∧
      (∀ k ∈ adds.map Prod.fst, ∃ v, lastAdded (addOps adds) k = some v ∧
        (Get c k).1 = some v) ∧
      Len c = (adds.map Prod.fst).dedup.length := by
  obtain ⟨c, hr, -, hmem⟩ := run_adds_unbounded n adds (inv_New 0 onEvicted)
    (c := (New 0 onEvicted : Cache V)) rfl
  have hi : Inv c := inv_run (inv_New 0 onEvicted) hr
  have hh : Hist c (lastAdded (addOps adds)) :=
    hist_run (inv_New 0 onEvicted) (hist_New 0 onEvicted) hr
  have hmem1 : ∀ k, k ∈ c.cache ↔ k ∈ adds.map Prod.fst := by
    intro k
    rw [hmem k]
    constructor
    · rintro (hk | hk)
      · exact absurd hk (AList.not_mem_empty k)
      · exact hk
    · exact Or.inr
  refine ⟨c, hr, ?_, ?_⟩
  · intro k hk
    obtain ⟨ele, hl⟩ := Option.isSome_iff_exists.mp (AList.lookup_isSome.mpr ((hmem1 k).mpr hk))
    obtain ⟨-, kv, hheap, -⟩ := hi.map_list k ele hl
    exact ⟨kv.value, hh k ele kv hl hheap, Get_fst_hit hl hheap⟩
  · rw [Len_eq_card_keys hi]
    apply List.Perm.length_eq
    refine (List.perm_ext_iff_of_nodup c.cache.keys_nodup (List.nodup_dedup _)).mpr ?_
    intro k
    rw [← AList.mem_keys, hmem1, List.mem_dedup]

/-- Witness of C4: `Get("a")` after `Add("a")`, `Add("b")` finds the value added for "a". -/
theorem Get_spec_witness :
    ∃ ele v, (addEntry (addEntry (New 10 true) "a" (ByteView.mk [1])) "b" (ByteView.mk [2, 3])).cache.lookup "a" = some ele ∧
      lastAdded [Op.add "a" (ByteView.mk [1]), Op.add "b" (ByteView.mk [2, 3])] "a" = some v ∧
      (Get (addEntry (addEntry (New 10 true) "a" (ByteView.mk [1])) "b" (ByteView.mk [2, 3])) "a").1 = some v :=
  have h := (Get_spec 10 true 1 [Op.add "a" (ByteView.mk [1]), Op.add "b" (ByteView.mk [2, 3])]
    (addEntry (addEntry (New 10 true) "a" (ByteView.mk [1])) "b" (ByteView.mk [2, 3])) "a" (by rfl)).2 (by decide)
  match h with
  | ⟨ele, v, h1, _, h3, h4, _⟩ => ⟨ele, v, h1, h3, by rw [h4]⟩

theorem evictLoop_length_le {fuel : Nat} {c c1 : Cache V}
    (hi : Inv c) (hr : evictLoop fuel c = some c1) : c1.ll.length ≤ c.ll.length := by
  induction fuel generalizing c with
  | zero => simp [evictLoop] at hr
  | succ n ih =>
    rw [evictLoop] at hr
    split_ifs at hr with hg
    · have := ih (inv_RemoveOldest hi) hr
      rw [RemoveOldest_ll hi, List.length_dropLast] at this
      omega
    · cases hr; exact le_refl _

theorem evictLoop_eq_of_length {fuel : Nat} {c c1 : Cache V}
    (hi : Inv c) (hr : evictLoop fuel c = some c1)
    (hlen : c1.ll.length = c.ll.length) : c1 = c := by
  induction fuel generalizing c with
  | zero => simp [evictLoop] at hr
  | succ n ih =>
    rw [evictLoop] at hr
    split_ifs at hr with hg
    · by_cases hne : c.ll = []
      · rw [RemoveOldest_empty hne] at hr
        exact ih hi hr hlen
      · have h1 := evictLoop_length_le (inv_RemoveOldest hi) hr
        have h2 := RemoveOldest_length hi hne
        omega
    · cases hr; rfl

theorem evictLoop_iterate {c : Cache V} (h : Inv c) (hmax : 0 ≤ c.maxBytes) :
    ∃ k, k ≤ c.ll.length ∧
      (∀ fuel, k < fuel → evictLoop fuel c = some (RemoveOldest^[k] c)) ∧
      (∀ j, j < k → (RemoveOldest^[j] c).maxBytes ≠ 0 ∧
        (RemoveOldest^[j] c).maxBytes < (RemoveOldest^[j] c).nbytes) ∧
      ¬ ((RemoveOldest^[k] c).maxBytes ≠ 0 ∧
        (RemoveOldest^[k] c).maxBytes < (RemoveOldest^[k] c).nbytes) := by
  generalize hn : c.ll.length = n
  induction n generalizing c with
  | zero =>
    have hnil : c.ll = [] := List.length_eq_zero.mp hn
    have hz := nbytes_eq_zero_of_nil h hnil
    have hg : ¬ (c.maxBytes ≠ 0 ∧ c.maxBytes < c.nbytes) := by
      rintro ⟨-, hlt⟩; omega
    refine ⟨0, le_refl _, ?_, fun j hj => absurd hj (Nat.not_lt_zero j), hg⟩
    intro fuel hf
    obtain ⟨f, rfl⟩ : ∃ f, fuel = f + 1 := ⟨fuel - 1, by omega⟩
    rw [evictLoop, if_neg hg]; rfl
  | succ n ih =>
    by_cases hg : c.maxBytes ≠ 0 ∧ c.maxBytes < c.nbytes
    · have hne : c.ll ≠ [] := by
        intro hnil; rw [hnil] at hn; cases hn
      have hlen := RemoveOldest_length h hne
      obtain ⟨k, hk, h1, h2, h3⟩ := ih (inv_RemoveOldest h)
        (by rw [RemoveOldest_maxBytes]; exact hmax) (by omega)
      refine ⟨k + 1, by omega, ?_, ?_, ?_⟩
      · intro fuel hf
        obtain ⟨f, rfl⟩ : ∃ f, fuel = f + 1 := ⟨fuel - 1, by omega⟩
        rw [evictLoop, if_pos hg, Function.iterate_succ_apply]
        exact h1 f (by omega)
      · intro j hj
        cases j with
        | zero => exact hg
        | succ j =>
          rw [Function.iterate_succ_apply]
          exact h2 j (by omega)
      · rw [Function.iterate_succ_apply]; exact h3
    · refine ⟨0, Nat.zero_le _, ?_, fun j hj => absurd hj (Nat.not_lt_zero j), hg⟩
      intro fuel hf
      obtain ⟨f, rfl⟩ : ∃ f, fuel = f + 1 := ⟨fuel - 1, by omega⟩
      rw [evictLoop, if_neg hg]; rfl

/-- C16 (termination of eviction). For a reachable cache with
`maxBytes ≥ 0` and any key and value, the loop of `Add` makes some number `k`
of `RemoveOldest` calls and returns, whatever the bound on the loop above `k`:
`k` is at most the number of entries `Len()` when the loop starts (itself at
most one more than before the `Add`), the guard holds before each of the `k`
calls, and it fails after the last, where `maxBytes = 0` or
`nbytes ≤ maxBytes` (which is the case at the latest when the cache is empty).
`Get`, `RemoveOldest` and `Len` are total functions, and the entry they read
through a map entry or the back of the list is always there. -/
theorem eviction_terminates (c : Cache V) (h : Reachable c) (hmax : 0 ≤ c.maxBytes)
    (key : String) (value : V) :
    (∃ k, k ≤ Len (addEntry c key value) ∧ Len (addEntry c key value) ≤ Len c + 1 ∧
      (∀ fuel, k < fuel →
        Add fuel c key value = some (RemoveOldest^[k] (addEntry c key value))) ∧
      (∀ j, j < k → (RemoveOldest^[j] (addEntry c key value)).maxBytes ≠ 0 ∧
        (RemoveOldest^[j] (addEntry c key value)).maxBytes <
          (RemoveOldest^[j] (addEntry c key value)).nbytes) ∧
      ((RemoveOldest^[k] (addEntry c key value)).maxBytes = 0 ∨
        (RemoveOldest^[k] (addEntry c key value)).nbytes ≤
          (RemoveOldest^[k] (addEntry c key value)).maxBytes)) ∧
    (∀ k ele, c.cache.lookup k = some ele → ∃ kv, c.heap ele = some kv) ∧
    (∀ ele, Back c.ll = some ele → ∃ kv, c.heap ele = some kv) := by
  have hi := inv_of_reachable h
  refine ⟨?_, ?_, ?_⟩
  · obtain ⟨k, hk, h1, h2, h3⟩ := evictLoop_iterate (inv_addEntry hi key value)
      (by rw [addEntry_maxBytes]; exact hmax)
    refine ⟨k, hk, addEntry_length_le c key value, h1, h2, ?_⟩
    by_cases hz : (RemoveOldest^[k] (addEntry c key value)).maxBytes = 0
    · exact Or.inl hz
    · right
      by_contra hlt
      exact h3 ⟨hz, by omega⟩
  · intro k ele hl
    obtain ⟨-, kv, hk, -⟩ := hi.map_list k ele hl
    exact ⟨kv, hk⟩
  · intro ele hb
    obtain ⟨kv, hk, -⟩ := hi.list_map ele (List.mem_of_getLast?_eq_some hb)
    exact ⟨kv, hk⟩

theorem liveBytes_nonneg {c : Cache V} (h : ∀ a ∈ c.ll, 0 ≤ entryBytes c.heap a) :
    0 ≤ liveBytes c := by
  apply List.sum_nonneg
  intro x hx
  obtain ⟨a, ha, rfl⟩ := List.mem_map.mp hx
  exact h a ha

theorem RemoveOldest_nonneg {c : Cache V} (hi : Inv c)
    (h : ∀ a ∈ c.ll, 0 ≤ entryBytes c.heap a) :
    ∀ a ∈ (RemoveOldest c).ll, 0 ≤ entryBytes (RemoveOldest c).heap a := by
  intro a ha
  rw [RemoveOldest_heap]
  rw [RemoveOldest_ll hi] at ha
  exact h a (List.mem_of_mem_dropLast ha)

theorem nbytes_exact {c : Cache V} (hi : Inv c) (h : ∀ a ∈ c.ll, 0 ≤ entryBytes c.heap a)
    (hfit : liveBytes c < 9223372036854775808) : c.nbytes = liveBytes c := by
  have hb := liveBytes_nonneg h
  rw [hi.bytes]
  exact int64_of_range (by omega) hfit

theorem liveBytes_RemoveOldest_le {c : Cache V} (hi : Inv c)
    (h : ∀ a ∈ c.ll, 0 ≤ entryBytes c.heap a) : liveBytes (RemoveOldest c) ≤ liveBytes c := by
  rw [liveBytes, liveBytes, RemoveOldest_heap, RemoveOldest_ll hi]
  refine List.Sublist.sum_le_sum ((List.dropLast_sublist c.ll).map _) ?_
  intro x hx
  obtain ⟨a, ha, rfl⟩ := List.mem_map.mp hx
  exact h a ha

theorem evictLoop_flush {c : Cache V} (hi : Inv c) (hC : 0 < c.maxBytes) :
    ∀ (n : Nat) (ele : Nat) (rest : List Nat), rest.length = n → c.ll = ele :: rest →
      c.maxBytes < entryBytes c.heap ele → (∀ a ∈ rest, 0 ≤ entryBytes c.heap a) →
      liveBytes c < 9223372036854775808 →
      ∀ fuel, n + 2 ≤ fuel → ∃ c1, evictLoop fuel c = some c1 ∧ Inv c1 ∧ c1.ll = [] := by
  intro n
  induction n generalizing c with
  | zero =>
    intro ele rest hn hll hbig _ hfit fuel hf
    have hrest : rest = [] := List.length_eq_zero.mp hn
    subst hrest
    obtain ⟨f, rfl⟩ : ∃ f, fuel = f + 2 := ⟨fuel - 2, by omega⟩
    have hl : liveBytes c = entryBytes c.heap ele := by
      rw [liveBytes, hll]; simp
    have hb : c.nbytes = entryBytes c.heap ele := by
      rw [hi.bytes, hl]
      exact int64_of_range (by omega) (by omega)
    have hll1 : (RemoveOldest c).ll = [] := by rw [RemoveOldest_ll hi, hll]; rfl
    have hi1 := inv_RemoveOldest hi
    have hz := nbytes_eq_zero_of_nil hi1 hll1
    refine ⟨RemoveOldest c, ?_, hi1, hll1⟩
    rw [evictLoop, if_pos ⟨by omega, by omega⟩, evictLoop, if_neg]
    rw [hz, RemoveOldest_maxBytes]
    rintro ⟨-, hlt⟩
    omega
  | succ n ih =>
    intro ele rest hn hll hbig hnn hfit fuel hf
    obtain ⟨f, rfl⟩ : ∃ f, fuel = f + 1 := ⟨fuel - 1, by omega⟩
    have hrest : rest ≠ [] := by
      intro hnil; rw [hnil] at hn; cases hn
    have hsum : 0 ≤ (rest.map (entryBytes c.heap)).sum := by
      apply List.sum_nonneg
      intro x hx
      obtain ⟨a, ha, rfl⟩ := List.mem_map.mp hx
      exact hnn a ha
    have hl : liveBytes c = entryBytes c.heap ele + (rest.map (entryBytes c.heap)).sum := by
      rw [liveBytes, hll]; simp
    have hb : c.nbytes = entryBytes c.heap ele + (rest.map (entryBytes c.heap)).sum := by
      rw [hi.bytes, hl]
      exact int64_of_range (by omega) (by omega)
    have hall : ∀ a ∈ c.ll, 0 ≤ entryBytes c.heap a := by
      intro a ha
      rw [hll] at ha
      rcases List.mem_cons.mp ha with rfl | hr
      · omega
      · exact hnn a hr
    have hll1 : (RemoveOldest c).ll = ele :: rest.dropLast := by
      rw [RemoveOldest_ll hi, hll, List.dropLast_cons_of_ne_nil hrest]
    rw [evictLoop, if_pos ⟨by omega, by omega⟩]
    exact ih (inv_RemoveOldest hi) (by rw [RemoveOldest_maxBytes]; exact hC) ele rest.dropLast
      (by rw [List.length_dropLast]; omega) hll1
      (by rw [RemoveOldest_maxBytes, RemoveOldest_heap]; exact hbig)
      (fun a ha => by
        rw [RemoveOldest_heap]
        exact hnn a (List.mem_of_mem_dropLast ha))
      (lt_of_le_of_lt (liveBytes_RemoveOldest_le hi hall) hfit)
      f (by omega)

theorem addEntry_front (c : Cache V) (hi : Inv c) (key : String) (value : V)
    (hnn : ∀ a ∈ c.ll, 0 ≤ entryBytes c.heap a) :
    ∃ ele rest, (addEntry c key value).ll = ele :: rest ∧ rest.length ≤ c.ll.length ∧
      entryBytes (addEntry c key value).heap ele =
        (key.utf8ByteSize : Int) + Value.Len value ∧
      (∀ a ∈ rest, 0 ≤ entryBytes (addEntry c key value).heap a) ∧
      liveBytes (addEntry c key value) ≤
        liveBytes c + ((key.utf8ByteSize : Int) + Value.Len value) := by
  cases h1 : c.cache.lookup key with
  | none =>
    rw [addEntry_new value h1]
    have hfresh : c.next ∉ c.ll := fun hm => Nat.lt_irrefl _ (hi.alloc _ hm)
    refine ⟨c.next, c.ll, rfl, le_refl _, entryBytes_of_heap (Function.update_same _ _ _), ?_, ?_⟩
    · intro a ha
      show 0 ≤ entryBytes (Function.update c.heap c.next _) a
      have hne : a ≠ c.next := fun hae => hfresh (hae ▸ ha)
      rw [entryBytes_update_ne _ _ _ hne]
      exact hnn a ha
    · show ((c.next :: c.ll).map
          (entryBytes (Function.update c.heap c.next (some ⟨key, value⟩)))).sum ≤ _
      rw [List.map_cons, List.sum_cons, sum_entryBytes_update _ _ _ _ hfresh,
        entryBytes_of_heap (Function.update_same _ _ _)]
      show _ + liveBytes c ≤ _
      simp only []
      omega
  | some ele =>
    obtain ⟨hmem, kv, hk, hkey⟩ := hi.map_list key ele h1
    rw [addEntry_hit value h1 hk]
    refine ⟨ele, c.ll.erase ele, moveToFront_of_mem hmem, ?_, ?_, ?_, ?_⟩
    · rw [List.length_erase_of_mem hmem]; omega
    · show entryBytes (Function.update c.heap ele _) ele = _
      rw [entryBytes_of_heap (Function.update_same _ _ _), hkey]
    · intro a ha
      show 0 ≤ entryBytes (Function.update c.heap ele _) a
      rw [entryBytes_update_ne _ _ _ (hi.nodup.mem_erase_iff.mp ha).1]
      exact hnn a (List.mem_of_mem_erase ha)
    · have h0 := hnn ele hmem
      rw [entryBytes_of_heap hk, hkey] at h0
      show ((MoveToFront c.ll ele).map
          (entryBytes (Function.update c.heap ele (some { kv with value := value })))).sum ≤ _
      rw [moveToFront_of_mem hmem, List.map_cons, List.sum_cons,
        sum_entryBytes_update _ _ _ _ (hi.nodup.not_mem_erase),
        sum_entryBytes_erase _ _ hmem, entryBytes_of_heap (Function.update_same _ _ _),
        entryBytes_of_heap hk, hkey]
      show _ + (liveBytes c - _) ≤ _
      simp only []
      omega

theorem cache_empty_of_nil {c : Cache V} (hi : Inv c) (hnil : c.ll = []) (k : String) :
    c.cache.lookup k = none := by
  cases hl : c.cache.lookup k with
  | none => rfl
  | some a =>
    have := (hi.map_list k a hl).1
    rw [hnil] at this
    cases this

/-- C19 (oversized entry), as amended. In a reachable cache with
`maxBytes = C > 0` all of whose entries have a non-negative size, `Add` of a
key and value with `len(key) + value.Len() > C`, the sum of the sizes of the
entries and of the new one being an `int64`, returns (the bound on the loop
being at least `Len() + 2`) an empty cache: `Len() = 0`, `nbytes = 0`, no key
in the map, and `Get(key)` finds nothing. -/
theorem oversized_flushes (c : Cache V) (h : Reachable c) (hC : 0 < c.maxBytes)
    (hnn : ∀ a ∈ c.ll, 0 ≤ entryBytes c.heap a) (key : String) (value : V)
    (hbig : c.maxBytes < (key.utf8ByteSize : Int) + Value.Len value)
    (hfit : liveBytes c + ((key.utf8ByteSize : Int) + Value.Len value) < 9223372036854775808)
    (fuel : Nat) (hfuel : Len c + 2 ≤ fuel) :
    ∃ c1, Add fuel c key value = some c1 ∧ Len c1 = 0 ∧ c1.nbytes = 0 ∧
      c1.cache.keys = [] ∧ (Get c1 key).1 = none := by
  have hi := inv_of_reachable h
  obtain ⟨ele, rest, hll, hlen, hsize, hrest, hle⟩ := addEntry_front c hi key value hnn
  obtain ⟨c1, h1, hi1, hnil⟩ := evictLoop_flush (inv_addEntry hi key value)
    (by rw [addEntry_maxBytes]; exact hC) rest.length ele rest rfl hll
    (by rw [addEntry_maxBytes, hsize]; exact hbig) hrest (lt_of_le_of_lt hle hfit)
    fuel (by rw [Len] at hfuel; omega)
  refine ⟨c1, h1, by rw [Len, hnil]; rfl, nbytes_eq_zero_of_nil hi1 hnil, ?_,
    Get_fst_miss (cache_empty_of_nil hi1 hnil key)⟩
  cases hk : c1.cache.keys with
  | nil => rfl
  | cons k ks =>
    have hmem : k ∈ c1.cache := AList.mem_keys.mpr (by rw [hk]; exact List.mem_cons_self _ _)
    have := cache_empty_of_nil hi1 hnil k
    rw [AList.lookup_eq_none] at this
    exact absurd hmem this

/-- C19 fails as stated: in a cache of capacity 10 holding "a" and "b" with
values of `Len()` 1 and 2, so `nbytes = 5`, the `Add` of the key "c" with a
value of `Len() = 9223372036854775807` brings `nbytes`, in `int64` arithmetic,
to `-9223372036854775803`; the guard `10 < nbytes` is false, the loop does not
run, and all three entries stay. -/
theorem oversized_flushes_counterexample :
    (run 1 [Op.add "a" (Sized.mk 1), Op.add "b" (Sized.mk 2),
        Op.add "c" (Sized.mk 9223372036854775807)] (New 10 false)).map
      (fun c => (decide (c.maxBytes < (("c" : String).utf8ByteSize : Int) +
        Value.Len (Sized.mk 9223372036854775807)), Len c, c.nbytes, (Get c "c").1)) =
      some (true, 3, -9223372036854775803, some (Sized.mk 9223372036854775807)) := by
  decide

theorem evictLoop_exact {fuel : Nat} {c c1 : Cache V} (hi : Inv c)
    (hnn : ∀ a ∈ c.ll, 0 ≤ entryBytes c.heap a) (hfit : liveBytes c < 9223372036854775808)
    (hr : evictLoop fuel c = some c1) :
    (∀ a ∈ c1.ll, 0 ≤ entryBytes c1.heap a) ∧ liveBytes c1 ≤ liveBytes c ∧
      c1.nbytes = liveBytes c1 := by
  induction fuel generalizing c with
  | zero => simp [evictLoop] at hr
  | succ n ih =>
    rw [evictLoop] at hr
    split_ifs at hr with hg
    · have hle := liveBytes_RemoveOldest_le hi hnn
      obtain ⟨h1, h2, h3⟩ := ih (inv_RemoveOldest hi) (RemoveOldest_nonneg hi hnn)
        (lt_of_le_of_lt hle hfit) hr
      exact ⟨h1, le_trans h2 hle, h3⟩
    · cases hr
      exact ⟨hnn, le_refl _, nbytes_exact hi hnn hfit⟩

theorem addEntry_nonneg (c : Cache V) (hi : Inv c) (key : String) (value : V)
    (hnn : ∀ a ∈ c.ll, 0 ≤ entryBytes c.heap a) (hlen : 0 ≤ Value.Len value) :
    ∀ a ∈ (addEntry c key value).ll, 0 ≤ entryBytes (addEntry c key value).heap a := by
  obtain ⟨ele, rest, hll, -, hsize, hrest, -⟩ := addEntry_front c hi key value hnn
  intro a ha
  rw [hll] at ha
  rcases List.mem_cons.mp ha with rfl | hr
  · rw [hsize]; omega
  · exact hrest a hr

theorem run_adds_capacity {fuel : Nat} (adds : List (String × V)) {c : Cache V} (hi : Inv c)
    (hC : 0 < c.maxBytes) (hnn : ∀ a ∈ c.ll, 0 ≤ entryBytes c.heap a)
    (hcap : liveBytes c ≤ c.maxBytes)
    (hlen : ∀ kv ∈ adds, 0 ≤ Value.Len kv.2)
    (hfit : ∀ kv ∈ adds,
      c.maxBytes + ((kv.1.utf8ByteSize : Int) + Value.Len kv.2) < 9223372036854775808)
    (hf : c.ll.length + adds.length < fuel) :
    ∃ c1, run fuel (addOps adds) c = some c1 ∧ liveBytes c1 ≤ c.maxBytes := by
  induction adds generalizing c with
  | nil => exact ⟨c, rfl, hcap⟩
  | cons kv adds ih =>
    simp only [List.length_cons] at hf
    obtain ⟨c1, h1, hi1, hm, -, hl, hc⟩ := Add_returns fuel hi (le_of_lt hC) kv.1 kv.2 (by omega)
    obtain ⟨-, -, -, -, -, -, hle⟩ := addEntry_front c hi kv.1 kv.2 hnn
    have hfit1 := hfit kv (List.mem_cons_self _ _)
    obtain ⟨e1, -, e3⟩ := evictLoop_exact (inv_addEntry hi kv.1 kv.2)
      (addEntry_nonneg c hi kv.1 kv.2 hnn (hlen kv (List.mem_cons_self _ _)))
      (by omega) h1
    have hcap1 : liveBytes c1 ≤ c1.maxBytes := by
      rw [← e3]
      rcases hc with hz | hc
      · omega
      · exact hc
    obtain ⟨c2, h2, hc2⟩ := ih hi1 (by rw [hm]; exact hC) e1 hcap1
      (fun kv1 hk => hlen kv1 (List.mem_cons_of_mem _ hk))
      (fun kv1 hk => by rw [hm]; exact hfit kv1 (List.mem_cons_of_mem _ hk)) (by omega)
    refine ⟨c2, ?_, by rw [← hm]; exact hc2⟩
    show (step fuel c (Op.add kv.1 kv.2)).bind (run fuel (addOps adds)) = some c2
    rw [show step fuel c (Op.add kv.1 kv.2) = Add fuel c kv.1 kv.2 from rfl, h1]
    exact h2

/-- C1 (capacity invariant), as amended. On a cache created by `New` with a
capacity `C > 0`, every finite sequence of `Add` calls whose values have
`Len() ≥ 0` and whose entries are so small that `C + len(key) + value.Len()`
is an `int64` returns (once the bound on the eviction loop exceeds the number
of calls), and in the state it leaves the sum of `len(key) + value.Len()` over
the live entries is at most `C`. Since the sequence is arbitrary this holds
after each call. -/
theorem capacity_invariant (C : Int) (hC : 0 < C) (onEvicted : Bool)
    (adds : List (String × V)) (hlen : ∀ kv ∈ adds, 0 ≤ Value.Len kv.2)
    (hfit : ∀ kv ∈ adds,
      C + ((kv.1.utf8ByteSize : Int) + Value.Len kv.2) < 9223372036854775808)
    (fuel : Nat) (hfuel : adds.length < fuel) :
    ∃ c : Cache V, run fuel (addOps adds) (New C onEvicted) = some c ∧ liveBytes c ≤ C :=
  run_adds_capacity adds (inv_New C onEvicted) (c := (New C onEvicted : Cache V)) hC
    (fun a ha => by cases ha) (le_of_lt hC) hlen hfit (by simpa [New] using hfuel)

/-- C1 fails as stated: on a cache of capacity 10, `Add` of the key "a" with
a value of `Len() = 9223372036854775807` brings `nbytes`, in `int64`
arithmetic, to `-9223372036854775808`; the guard `10 < nbytes` is false, `Add`
returns, and the entry, of size `9223372036854775808`, stays in the cache. -/
theorem capacity_invariant_counterexample :
    (run 1 (addOps [("a", Sized.mk 9223372036854775807)]) (New 10 false)).map
      (fun c => (Len c, c.nbytes, liveBytes c, decide (liveBytes c ≤ 10))) =
      some (1, -9223372036854775808, 9223372036854775808, false) := by
  decide

/-- Witness of C1 as amended: two `Add` calls on a cache of capacity 4. -/
theorem capacity_invariant_witness :
    (0 : Int) < 4 ∧ [("a", ByteView.mk [1, 2]), ("b", ByteView.mk [3])].length < 3 ∧
    ∃ c : Cache ByteView,
      run 3 (addOps [("a", ByteView.mk [1, 2]), ("b", ByteView.mk [3])]) (New 4 true) = some c ∧
        liveBytes c ≤ 4 :=
  ⟨by decide, by decide,
    capacity_invariant 4 (by decide) true [("a", ByteView.mk [1, 2]), ("b", ByteView.mk [3])]
      (by decide) (by decide) 3 (by decide)⟩

/-- Witness of C19 as amended: a 12-byte key on the cache of capacity 10
holding "a" and "b". -/
theorem oversized_flushes_witness :
    ∃ c1, Add 4 (addEntry (addEntry (New 10 true) "a" (ByteView.mk [1])) "b" (ByteView.mk [2, 3])) "0123456789ab" (ByteView.mk []) = some c1 ∧ Len c1 = 0 ∧ c1.nbytes = 0 ∧
      c1.cache.keys = [] ∧ (Get c1 "0123456789ab").1 = none :=
  oversized_flushes (addEntry (addEntry (New 10 true) "a" (ByteView.mk [1])) "b" (ByteView.mk [2, 3]))
    ⟨10, true, 1, [Op.add "a" (ByteView.mk [1]), Op.add "b" (ByteView.mk [2, 3])], by rfl⟩ (by decide) (by decide) "0123456789ab" (ByteView.mk []) (by decide) (by decide) 4 (by decide)

/-- Witness of C16: `Add("c")` on the cache holding "a" and "b". -/
theorem eviction_terminates_witness :
    ∃ k, k ≤ Len (addEntry (addEntry (addEntry (New 10 true) "a" (ByteView.mk [1])) "b" (ByteView.mk [2, 3])) "c" (ByteView.mk [5])) ∧
      ∀ fuel, k < fuel →
        Add fuel (addEntry (addEntry (New 10 true) "a" (ByteView.mk [1])) "b" (ByteView.mk [2, 3])) "c" (ByteView.mk [5]) =
          some (RemoveOldest^[k] (addEntry (addEntry (addEntry (New 10 true) "a" (ByteView.mk [1])) "b" (ByteView.mk [2, 3])) "c" (ByteView.mk [5]))) :=
  match (eviction_terminates (addEntry (addEntry (New 10 true) "a" (ByteView.mk [1])) "b" (ByteView.mk [2, 3]))
    ⟨10, true, 1, [Op.add "a" (ByteView.mk [1]), Op.add "b" (ByteView.mk [2, 3])], by rfl⟩ (by decide) "c" (ByteView.mk [5])).1 with
  | ⟨k, h1, _, h3, _⟩ => ⟨k, h1, h3⟩

end lru

/-! ## The consistent-hash ring -/

namespace consistenthash



theorem searchLoop_spec (f : Nat → Bool) (n : Nat)
    (hmono : ∀ a b, a ≤ b → b < n → f a = true → f b = true) :
    ∀ fuel i j, i ≤ j → j ≤ n → j - i ≤ fuel → (∀ k, k < i → f k = false) →
      (∀ k, j ≤ k → k < n → f k = true) →
      i ≤ searchLoop f fuel i j ∧ searchLoop f fuel i j ≤ j ∧
        (∀ k, k < searchLoop f fuel i j → f k = false) ∧
        (∀ k, searchLoop f fuel i j ≤ k → k < n → f k = true) := by
  intro fuel
  induction fuel with
  | zero =>
    intro i j hij _ hf hlo hhi
    have : i = j := by omega
    subst this
    exact ⟨le_refl _, le_refl _, hlo, hhi⟩
  | succ fuel ih =>
    intro i j hij hjn hf hlo hhi
    rw [searchLoop]
    by_cases hlt : i < j
    · rw [if_pos hlt]
      dsimp only
      have hh : (i + j) / 2 < j := by omega
      cases hfh : f ((i + j) / 2) with
      | false =>
        rw [if_pos (by simp)]
        obtain ⟨h1, h2, h3, h4⟩ := ih ((i + j) / 2 + 1) j (by omega) hjn (by omega)
          (fun k hk => by
            cases hfk : f k with
            | false => rfl
            | true =>
              have := hmono k ((i + j) / 2) (by omega) (by omega) hfk
              rw [hfh] at this
              cases this)
          hhi
        exact ⟨by omega, h2, h3, h4⟩
      | true =>
        rw [if_neg (by simp)]
        obtain ⟨h1, h2, h3, h4⟩ := ih i ((i + j) / 2) (by omega) (by omega) (by omega) hlo
          (fun k hk hkn => hmono _ k hk hkn hfh)
        exact ⟨h1, by omega, h3, h4⟩
    · rw [if_neg hlt]
      have : i = j := by omega
      subst this
      exact ⟨le_refl _, le_refl _, hlo, hhi⟩

theorem Search_spec (f : Nat → Bool) (n : Nat)
    (hmono : ∀ a b, a ≤ b → b < n → f a = true → f b = true) :
    Search n f ≤ n ∧ (∀ k, k < Search n f → f k = false) ∧
      (∀ k, Search n f ≤ k → k < n → f k = true) := by
  obtain ⟨-, h2, h3, h4⟩ := searchLoop_spec f n hmono n 0 n (Nat.zero_le _) (le_refl _)
    (by omega) (fun k hk => absurd hk (Nat.not_lt_zero k)) (fun k hk hkn => by omega)
  exact ⟨h2, h3, h4⟩

theorem ownerPos_unique {keys : List Nat} {h p q : Nat} (hp : OwnerPos keys h p)
    (hq : OwnerPos keys h q) : p = q := by
  obtain ⟨hpm, hp⟩ := hp
  obtain ⟨hqm, hq⟩ := hq
  rcases hp with ⟨hp1, hp2⟩ | ⟨hp1, hp2⟩ <;> rcases hq with ⟨hq1, hq2⟩ | ⟨hq1, hq2⟩
  · exact le_antisymm (hp2 q hqm hq1) (hq2 p hpm hp1)
  · have := hq1 p hpm; omega
  · have := hp1 q hqm; omega
  · exact le_antisymm (hp2 q hqm) (hq2 p hpm)

theorem ownerPos_congr {keys keys1 : List Nat} {h p : Nat} (hk : ∀ q, q ∈ keys ↔ q ∈ keys1)
    (hp : OwnerPos keys h p) : OwnerPos keys1 h p := by
  obtain ⟨hpm, hp⟩ := hp
  refine ⟨(hk p).mp hpm, ?_⟩
  rcases hp with ⟨hp1, hp2⟩ | ⟨hp1, hp2⟩
  · exact Or.inl ⟨hp1, fun q hq => hp2 q ((hk q).mpr hq)⟩
  · exact Or.inr ⟨fun q hq => hp1 q ((hk q).mpr hq), fun q hq => hp2 q ((hk q).mpr hq)⟩

theorem ownerPos_subset {keys keys1 : List Nat} {h p : Nat} (hk : ∀ q, q ∈ keys → q ∈ keys1)
    (hp : OwnerPos keys1 h p) (hpm : p ∈ keys) : OwnerPos keys h p := by
  refine ⟨hpm, ?_⟩
  rcases hp.2 with ⟨hp1, hp2⟩ | ⟨hp1, hp2⟩
  · exact Or.inl ⟨hp1, fun q hq => hp2 q (hk q hq)⟩
  · exact Or.inr ⟨fun q hq => hp1 q (hk q hq), fun q hq => hp2 q (hk q hq)⟩

theorem Get_of_nil {m : Map} (h : m.keys = []) (key : String) : Get m key = "" := by
  simp [Get, h]

theorem Get_owner {m : Map} (hs : m.keys.Sorted (fun a b => a ≤ b)) (hne : m.keys ≠ [])
    (key : String) :
    ∃ p, OwnerPos m.keys (uint32 (m.hash (bytes key))) p ∧
      Get m key = (m.hashMap.lookup p).getD "" := by
  have hlen : 0 < m.keys.length := List.length_pos.mpr hne
  have hsorted : ∀ a b, a ≤ b → (hb : b < m.keys.length) →
      m.keys.getD a 0 ≤ m.keys.getD b 0 := by
    intro a b hab hb
    rw [List.getD_eq_getElem _ _ (lt_of_le_of_lt hab hb), List.getD_eq_getElem _ _ hb]
    exact hs.rel_get_of_le (a := ⟨a, lt_of_le_of_lt hab hb⟩) (b := ⟨b, hb⟩) hab
  obtain ⟨h1, h2, h3⟩ := Search_spec
    (fun i => decide (m.keys.getD i 0 ≥ uint32 (m.hash (bytes key)))) m.keys.length
    (fun a b hab hb ha => by
      have := hsorted a b hab hb
      simp only [ge_iff_le, decide_eq_true_eq] at ha ⊢
      omega)
  have hget : Get m key = (m.hashMap.lookup (m.keys.getD
      (Search m.keys.length (fun i => decide (m.keys.getD i 0 ≥ uint32 (m.hash (bytes key)))) %
        m.keys.length) 0)).getD "" := by
    rw [Get, if_neg (by omega)]
  refine ⟨_, ?_, hget⟩
  generalize Search m.keys.length
    (fun i => decide (m.keys.getD i 0 ≥ uint32 (m.hash (bytes key)))) = r at h1 h2 h3
  have hget_mem : ∀ i, i < m.keys.length → m.keys.getD i 0 ∈ m.keys := by
    intro i hi
    rw [List.getD_eq_getElem _ _ hi]
    exact List.getElem_mem _
  have hidx : ∀ q ∈ m.keys, ∃ j, j < m.keys.length ∧ m.keys.getD j 0 = q := by
    intro q hq
    obtain ⟨j, hj, rfl⟩ := List.mem_iff_getElem.mp hq
    exact ⟨j, hj, List.getD_eq_getElem _ _ hj⟩
  by_cases hr : r < m.keys.length
  · rw [Nat.mod_eq_of_lt hr]
    refine ⟨hget_mem r hr, Or.inl ⟨?_, ?_⟩⟩
    · simpa using h3 r (le_refl _) hr
    · intro q hq hhq
      obtain ⟨j, hj, rfl⟩ := hidx q hq
      by_cases hjr : j < r
      · have := h2 j hjr
        simp only [ge_iff_le, decide_eq_false_iff_not] at this
        omega
      · exact hsorted r j (by omega) hj
  · have hrn : r = m.keys.length := by omega
    rw [hrn, Nat.mod_self]
    refine ⟨hget_mem 0 hlen, Or.inr ⟨?_, ?_⟩⟩
    · intro q hq
      obtain ⟨j, hj, rfl⟩ := hidx q hq
      have := h2 j (by omega)
      simp only [ge_iff_le, decide_eq_false_iff_not] at this
      omega
    · intro q hq
      obtain ⟨j, hj, rfl⟩ := hidx q hq
      exact hsorted 0 j (Nat.zero_le _) hj



theorem foldl_addReplica (key : String) (is : List Nat) (m : Map) :
    (is.foldl (fun m i => addReplica m key i) m).hash = m.hash ∧
    (is.foldl (fun m i => addReplica m key i) m).replicas = m.replicas ∧
    (∀ q, q ∈ (is.foldl (fun m i => addReplica m key i) m).keys ↔
      q ∈ m.keys ∨ q ∈ is.map (position m.hash key)) ∧
    (∀ q, (is.foldl (fun m i => addReplica m key i) m).hashMap.lookup q =
      if q ∈ is.map (position m.hash key) then some key else m.hashMap.lookup q) := by
  induction is generalizing m with
  | nil => simp
  | cons i is ih =>
    obtain ⟨h1, h2, h3, h4⟩ := ih (addReplica m key i)
    have e1 : (addReplica m key i).hash = m.hash := rfl
    have e2 : (addReplica m key i).keys = m.keys ++ [position m.hash key i] := rfl
    have e3 : (addReplica m key i).hashMap = m.hashMap.insert (position m.hash key i) key := rfl
    rw [List.foldl_cons]
    refine ⟨h1.trans e1, h2, ?_, ?_⟩
    · intro q
      rw [h3 q, e1, e2]
      simp only [List.mem_append, List.mem_singleton, List.map_cons, List.mem_cons]
      tauto
    · intro q
      rw [h4 q, e1, e3]
      simp only [List.map_cons, List.mem_cons]
      by_cases hq : q ∈ is.map (position m.hash key)
      · simp [hq]
      · by_cases hq1 : q = position m.hash key i
        · subst hq1
          simp [AList.lookup_insert]
        · simp [hq, hq1, AList.lookup_insert_ne hq1]

theorem addKey_spec (m : Map) (key : String) :
    (addKey m key).hash = m.hash ∧ (addKey m key).replicas = m.replicas ∧
    (∀ q, q ∈ (addKey m key).keys ↔ q ∈ m.keys ∨ q ∈ positions m.hash m.replicas key) ∧
    (∀ q, (addKey m key).hashMap.lookup q =
      if q ∈ positions m.hash m.replicas key then some key else m.hashMap.lookup q) :=
  foldl_addReplica key (List.range m.replicas.toNat) m

theorem foldl_addKey (ns : List String) (m : Map) :
    (ns.foldl addKey m).hash = m.hash ∧ (ns.foldl addKey m).replicas = m.replicas ∧
    (∀ q, q ∈ (ns.foldl addKey m).keys ↔
      q ∈ m.keys ∨ ∃ n ∈ ns, q ∈ positions m.hash m.replicas n) ∧
    (∀ q, (∀ n ∈ ns, q ∉ positions m.hash m.replicas n) →
      (ns.foldl addKey m).hashMap.lookup q = m.hashMap.lookup q) ∧
    (∀ q, (∃ n ∈ ns, q ∈ positions m.hash m.replicas n) →
      ∃ n ∈ ns, q ∈ positions m.hash m.replicas n ∧
        (ns.foldl addKey m).hashMap.lookup q = some n) := by
  induction ns generalizing m with
  | nil => simp
  | cons n ns ih =>
    obtain ⟨a1, a2, a3, a4⟩ := addKey_spec m n
    obtain ⟨h1, h2, h3, h4, h5⟩ := ih (addKey m n)
    rw [a1, a2] at h3 h4 h5
    rw [List.foldl_cons]
    refine ⟨h1.trans a1, h2.trans a2, ?_, ?_, ?_⟩
    · intro q
      rw [h3 q, a3 q]
      simp only [List.mem_cons, exists_eq_or_imp]
      tauto
    · intro q hq
      rw [h4 q (fun n1 hn1 => hq n1 (List.mem_cons_of_mem _ hn1)), a4 q,
        if_neg (hq n (List.mem_cons_self _ _))]
    · intro q hq
      by_cases hlater : ∃ n1 ∈ ns, q ∈ positions m.hash m.replicas n1
      · obtain ⟨n1, hn1, hq1, hl⟩ := h5 q hlater
        exact ⟨n1, List.mem_cons_of_mem _ hn1, hq1, hl⟩
      · have hnot : ∀ n1 ∈ ns, q ∉ positions m.hash m.replicas n1 :=
          fun n1 hn1 hq1 => hlater ⟨n1, hn1, hq1⟩
        have hn : q ∈ positions m.hash m.replicas n := by
          obtain ⟨n1, hn1, hq1⟩ := hq
          rcases List.mem_cons.mp hn1 with rfl | hn1
          · exact hq1
          · exact absurd hq1 (hnot n1 hn1)
        exact ⟨n, List.mem_cons_self _ _, hn, by rw [h4 q hnot, a4 q, if_pos hn]⟩

theorem mem_Ints {l : List Nat} {q : Nat} : q ∈ Ints l ↔ q ∈ l :=
  (List.perm_insertionSort _ l).mem_iff

theorem sorted_Ints (l : List Nat) : (Ints l).Sorted (fun a b => a ≤ b) :=
  List.sorted_insertionSort _ l

theorem Add_spec (m : Map) (ns : List String) :
    (Add m ns).hash = m.hash ∧ (Add m ns).replicas = m.replicas ∧
    (Add m ns).keys.Sorted (fun a b => a ≤ b) ∧
    (∀ q, q ∈ (Add m ns).keys ↔ q ∈ m.keys ∨ ∃ n ∈ ns, q ∈ positions m.hash m.replicas n) ∧
    (∀ q, (∀ n ∈ ns, q ∉ positions m.hash m.replicas n) →
      (Add m ns).hashMap.lookup q = m.hashMap.lookup q) ∧
    (∀ q, (∃ n ∈ ns, q ∈ positions m.hash m.replicas n) →
      ∃ n ∈ ns, q ∈ positions m.hash m.replicas n ∧ (Add m ns).hashMap.lookup q = some n) := by
  obtain ⟨h1, h2, h3, h4, h5⟩ := foldl_addKey ns m
  refine ⟨h1, h2, sorted_Ints _, ?_, h4, h5⟩
  intro q
  show q ∈ Ints (ns.foldl addKey m).keys ↔ _
  rw [mem_Ints, h3 q]

theorem ringInv_New (replicas : Int) (fn : Option Hash) : RingInv (New replicas fn) [] where
  sorted := List.sorted_nil
  mem_keys := by simp [New]
  lookup_sound := by simp [New]
  lookup_total := by simp [New]

theorem ringInv_Add {m : Map} {names : List String} (h : RingInv m names) (ns : List String) :
    RingInv (Add m ns) (names ++ ns) := by
  obtain ⟨h1, h2, h3, h4, h5, h6⟩ := Add_spec m ns
  refine ⟨h3, ?_, ?_, ?_⟩
  · intro q
    rw [h4 q, h.mem_keys q, h1, h2]
    simp only [List.mem_append]
    constructor
    · rintro (⟨n, hn, hq⟩ | ⟨n, hn, hq⟩)
      · exact ⟨n, Or.inl hn, hq⟩
      · exact ⟨n, Or.inr hn, hq⟩
    · rintro ⟨n, hn | hn, hq⟩
      · exact Or.inl ⟨n, hn, hq⟩
      · exact Or.inr ⟨n, hn, hq⟩
  · intro q n hl
    rw [h1, h2]
    by_cases hq : ∃ n1 ∈ ns, q ∈ positions m.hash m.replicas n1
    · obtain ⟨n1, hn1, hq1, hl1⟩ := h6 q hq
      rw [hl] at hl1
      cases hl1
      exact ⟨List.mem_append_right _ hn1, hq1⟩
    · rw [h5 q (fun n1 hn1 hq1 => hq ⟨n1, hn1, hq1⟩)] at hl
      obtain ⟨hn, hq1⟩ := h.lookup_sound q n hl
      exact ⟨List.mem_append_left _ hn, hq1⟩
  · intro q hq
    by_cases hq1 : ∃ n1 ∈ ns, q ∈ positions m.hash m.replicas n1
    · obtain ⟨n1, -, -, hl1⟩ := h6 q hq1
      exact ⟨n1, hl1⟩
    · rw [h5 q (fun n1 hn1 hq2 => hq1 ⟨n1, hn1, hq2⟩)]
      rcases (h4 q).mp hq with hk | hk
      · exact h.lookup_total q hk
      · exact absurd hk hq1

theorem ringInv_foldl (replicas : Int) (fn : Option Hash) (calls : List (List String)) :
    RingInv (calls.foldl Add (New replicas fn)) calls.flatten ∧
      (calls.foldl Add (New replicas fn)).hash = (New replicas fn).hash ∧
      (calls.foldl Add (New replicas fn)).replicas = replicas := by
  induction calls using List.reverseRecOn with
  | nil => exact ⟨ringInv_New replicas fn, rfl, rfl⟩
  | append_singleton calls ns ih =>
    obtain ⟨h1, h2, h3⟩ := ih
    rw [List.foldl_append, List.foldl_cons, List.foldl_nil, List.flatten_append]
    refine ⟨by simpa using ringInv_Add h1 ns, ?_, ?_⟩
    · rw [(Add_spec _ ns).1, h2]
    · rw [(Add_spec _ ns).2.1, h3]

theorem ringInv_of_reachable {m : Map} (h : Reachable m) : ∃ names, RingInv m names := by
  obtain ⟨replicas, fn, calls, rfl⟩ := h
  exact ⟨_, (ringInv_foldl replicas fn calls).1⟩


/-- C8 (`Get` reference semantics). On every ring built from `New` by `Add`
calls, with `h` the hash of the key: `Get` returns "" when the ring has no
positions; when some position is at least `h`, the smallest such position has
a node name recorded in `hashMap` and `Get` returns that name (a position equal
to `h` is itself selected); and when no position is at least `h`, the smallest
position of the ring has a recorded name and `Get` returns it. -/
theorem Get_reference (m : Map) (hm : Reachable m) (key : String) :
    (m.keys = [] → Get m key = "") ∧
    ((∃ q ∈ m.keys, uint32 (m.hash (bytes key)) ≤ q) →
      ∃ p ∈ m.keys, uint32 (m.hash (bytes key)) ≤ p ∧
        (∀ q ∈ m.keys, uint32 (m.hash (bytes key)) ≤ q → p ≤ q) ∧
        m.hashMap.lookup p = some (Get m key)) ∧
    (m.keys ≠ [] → (∀ q ∈ m.keys, q < uint32 (m.hash (bytes key))) →
      ∃ p ∈ m.keys, (∀ q ∈ m.keys, p ≤ q) ∧ m.hashMap.lookup p = some (Get m key)) := by
  obtain ⟨names, hi⟩ := ringInv_of_reachable hm
  refine ⟨fun h => Get_of_nil h key, ?_, ?_⟩
  · rintro ⟨q, hq, hhq⟩
    obtain ⟨p, ⟨hpm, hp⟩, hget⟩ := Get_owner hi.sorted (List.ne_nil_of_mem hq) key
    obtain ⟨n, hn⟩ := hi.lookup_total p hpm
    rw [hn] at hget
    rcases hp with ⟨hp1, hp2⟩ | ⟨hp1, -⟩
    · exact ⟨p, hpm, hp1, hp2, by rw [hn, hget]; rfl⟩
    · have := hp1 q hq
      omega
  · intro hne hall
    obtain ⟨p, ⟨hpm, hp⟩, hget⟩ := Get_owner hi.sorted hne key
    obtain ⟨n, hn⟩ := hi.lookup_total p hpm
    rw [hn] at hget
    rcases hp with ⟨hp1, -⟩ | ⟨-, hp2⟩
    · have := hall p hpm
      omega
    · exact ⟨p, hpm, hp2, by rw [hn, hget]; rfl⟩

/-- C9 (bounded key movement). On every ring built from `New` by `Add` calls,
after a further `Add(n)` the owner of any key is either its owner before the
call or the new node `n`. -/
theorem Add_moves_only_to_new (m : Map) (hm : Reachable m) (n : String) (k : String) :
    Get (Add m [n]) k = Get m k ∨ Get (Add m [n]) k = n := by
  obtain ⟨names, hi⟩ := ringInv_of_reachable hm
  have hi1 := ringInv_Add hi [n]
  obtain ⟨h1, h2, -, h4, h5, h6⟩ := Add_spec m [n]
  by_cases hne1 : (Add m [n]).keys = []
  · left
    have hne : m.keys = [] := by
      cases hk : m.keys with
      | nil => rfl
      | cons q qs =>
        have : q ∈ (Add m [n]).keys := (h4 q).mpr (Or.inl (by rw [hk]; exact List.mem_cons_self _ _))
        rw [hne1] at this
        cases this
    rw [Get_of_nil hne1, Get_of_nil hne]
  · obtain ⟨p1, hp1, hget1⟩ := Get_owner hi1.sorted hne1 k
    rw [h1] at hp1
    by_cases hnew : p1 ∈ positions m.hash m.replicas n
    · right
      obtain ⟨n1, hn1, -, hl⟩ := h6 p1 ⟨n, List.mem_singleton_self n, hnew⟩
      rw [List.mem_singleton.mp hn1] at hl
      rw [hget1, hl]; rfl
    · left
      have hnot : ∀ n1 ∈ [n], p1 ∉ positions m.hash m.replicas n1 := by
        intro n1 hn1
        rw [List.mem_singleton.mp hn1]
        exact hnew
      have hold : p1 ∈ m.keys := by
        rcases (h4 p1).mp hp1.1 with hk | ⟨n1, hn1, hq⟩
        · exact hk
        · exact absurd hq (hnot n1 hn1)
      obtain ⟨p, hp, hget⟩ := Get_owner hi.sorted (List.ne_nil_of_mem hold) k
      have hsub : OwnerPos m.keys (uint32 (m.hash (bytes k))) p1 :=
        ownerPos_subset (fun q hq => (h4 q).mpr (Or.inl hq)) hp1 hold
      rw [hget1, hget, h5 p1 hnot, ownerPos_unique hp hsub]

/-- C10 (ring determinism), as amended. For a fixed replica count and hash
function, two sequences of `Add` calls that add the same node names in any
order and grouping to a fresh ring give rings on which `Get` returns the same
owner for every key, provided no ring position is shared by two distinct node
names. -/
theorem ring_determinism (replicas : Int) (fn : Option Hash) (calls1 calls2 : List (List String))
    (hperm : calls1.flatten.Perm calls2.flatten)
    (hfree : ∀ n1 ∈ calls1.flatten, ∀ n2 ∈ calls1.flatten,
      ∀ p ∈ positions (New replicas fn).hash replicas n1,
        p ∈ positions (New replicas fn).hash replicas n2 → n1 = n2)
    (key : String) :
    Get (calls1.foldl Add (New replicas fn)) key = Get (calls2.foldl Add (New replicas fn)) key := by
  obtain ⟨i1, e1, r1⟩ := ringInv_foldl replicas fn calls1
  obtain ⟨i2, e2, r2⟩ := ringInv_foldl replicas fn calls2
  have hkeys : ∀ q, q ∈ (calls1.foldl Add (New replicas fn)).keys ↔
      q ∈ (calls2.foldl Add (New replicas fn)).keys := by
    intro q
    rw [i1.mem_keys q, i2.mem_keys q, e1, e2, r1, r2]
    constructor
    · rintro ⟨n, hn, hq⟩
      exact ⟨n, hperm.mem_iff.mp hn, hq⟩
    · rintro ⟨n, hn, hq⟩
      exact ⟨n, hperm.mem_iff.mpr hn, hq⟩
  by_cases hne1 : (calls1.foldl Add (New replicas fn)).keys = []
  · have hne2 : (calls2.foldl Add (New replicas fn)).keys = [] := by
      cases hk : (calls2.foldl Add (New replicas fn)).keys with
      | nil => rfl
      | cons q qs =>
        have : q ∈ (calls1.foldl Add (New replicas fn)).keys :=
          (hkeys q).mpr (by rw [hk]; exact List.mem_cons_self _ _)
        rw [hne1] at this
        cases this
    rw [Get_of_nil hne1, Get_of_nil hne2]
  · obtain ⟨p1, hp1, hget1⟩ := Get_owner i1.sorted hne1 key
    have hne2 : (calls2.foldl Add (New replicas fn)).keys ≠ [] :=
      List.ne_nil_of_mem ((hkeys p1).mp hp1.1)
    obtain ⟨p2, hp2, hget2⟩ := Get_owner i2.sorted hne2 key
    rw [e1] at hp1
    rw [e2] at hp2
    have hp : p1 = p2 := ownerPos_unique (ownerPos_congr hkeys hp1) hp2
    subst hp
    obtain ⟨n1, hl1⟩ := i1.lookup_total p1 hp1.1
    obtain ⟨n2, hl2⟩ := i2.lookup_total p1 hp2.1
    obtain ⟨hn1, hq1⟩ := i1.lookup_sound p1 n1 hl1
    obtain ⟨hn2, hq2⟩ := i2.lookup_sound p1 n2 hl2
    rw [e1, r1] at hq1
    rw [e2, r2] at hq2
    have : n1 = n2 := hfree n1 hn1 n2 (hperm.mem_iff.mpr hn2) p1 hq1 hq2
    rw [hget1, hget2, hl1, hl2, this]

/-- C10 fails as stated: with one replica and a hash function that sends
everything to 0, the nodes "A" and "B" share a ring position, which goes to the
node added last; added in the two orders they give rings that disagree on the
owner of the key "k". -/
theorem ring_determinism_counterexample :
    Get ([["A"], ["B"]].foldl Add (New 1 (some (fun _ => 0)))) "k" = "B" ∧
      Get ([["B"], ["A"]].foldl Add (New 1 (some (fun _ => 0)))) "k" = "A" := by
  decide

/-- Witness of C8: the owner of the key "k" on the ring of "A" and "B". -/
theorem Get_reference_witness :
    (ringAB.keys = [] → Get ringAB "k" = "") ∧
    ((∃ q ∈ ringAB.keys, uint32 (ringAB.hash (bytes "k")) ≤ q) →
      ∃ p ∈ ringAB.keys, uint32 (ringAB.hash (bytes "k")) ≤ p ∧
        (∀ q ∈ ringAB.keys, uint32 (ringAB.hash (bytes "k")) ≤ q → p ≤ q) ∧
        ringAB.hashMap.lookup p = some (Get ringAB "k")) ∧
    (ringAB.keys ≠ [] → (∀ q ∈ ringAB.keys, q < uint32 (ringAB.hash (bytes "k"))) →
      ∃ p ∈ ringAB.keys, (∀ q ∈ ringAB.keys, p ≤ q) ∧
        ringAB.hashMap.lookup p = some (Get ringAB "k")) :=
  Get_reference ringAB ⟨3, none, [["A", "B"]], rfl⟩ "k"

/-- Witness of C9: the node "C" joins the ring of "A" and "B". -/
theorem Add_moves_only_to_new_witness :
    Get (Add ringAB ["C"]) "k" = Get ringAB "k" ∨ Get (Add ringAB ["C"]) "k" = "C" :=
  Add_moves_only_to_new ringAB ⟨3, none, [["A", "B"]], rfl⟩ "C" "k"

/-- Witness of C10 as amended: "A" then "B" in two calls against "B", "A" in
one call, with three replicas and the default hash function, under which the
six positions are distinct. -/
theorem ring_determinism_witness :
    Get ([["A"], ["B"]].foldl Add (New 3 none)) "k" =
      Get ([["B", "A"]].foldl Add (New 3 none)) "k" :=
  ring_determinism 3 none [["A"], ["B"]] [["B", "A"]] (by decide) (by decide) "k"

theorem foldl_addReplica_keys (key : String) (is : List Nat) (m : Map) :
    (is.foldl (fun m i => addReplica m key i) m).keys =
      m.keys ++ is.map (position m.hash key) := by
  induction is generalizing m with
  | nil => simp
  | cons i is ih =>
    rw [List.foldl_cons, ih (addReplica m key i)]
    show (m.keys ++ [position m.hash key i]) ++ _ = _
    simp [position, addReplica]

theorem foldl_addKey_keys (ns : List String) (m : Map) :
    (ns.foldl addKey m).keys = m.keys ++ ns.flatMap (positions m.hash m.replicas) := by
  induction ns generalizing m with
  | nil => simp
  | cons n ns ih =>
    obtain ⟨a1, a2, -, -⟩ := addKey_spec m n
    rw [List.foldl_cons, ih (addKey m n), a1, a2]
    have : (addKey m n).keys = m.keys ++ positions m.hash m.replicas n :=
      foldl_addReplica_keys n (List.range m.replicas.toNat) m
    rw [this, List.flatMap_cons, List.append_assoc]

theorem Add_keys (m : Map) (ns : List String) :
    (Add m ns).keys = Ints (m.keys ++ ns.flatMap (positions m.hash m.replicas)) := by
  show Ints (ns.foldl addKey m).keys = _
  rw [foldl_addKey_keys]

/-- C11 (ring coverage), as amended. For a positive replica count, any hash
function and any sequence of `Add` calls on a fresh ring that adds at least
one node name, `Get` returns for every key one of the added names: never a
name that was not added, and never the empty string unless the empty string is
itself one of the added names. -/
theorem ring_coverage (replicas : Int) (hpos : 0 < replicas) (fn : Option Hash)
    (calls : List (List String)) (hne : calls.flatten ≠ []) (key : String) :
    Get (calls.foldl Add (New replicas fn)) key ∈ calls.flatten ∧
      ("" ∉ calls.flatten → Get (calls.foldl Add (New replicas fn)) key ≠ "") := by
  obtain ⟨hi, -, hr⟩ := ringInv_foldl replicas fn calls
  have hkeys : (calls.foldl Add (New replicas fn)).keys ≠ [] := by
    obtain ⟨n, hn⟩ := List.exists_mem_of_ne_nil _ hne
    have hp : position (calls.foldl Add (New replicas fn)).hash n 0 ∈
        positions (calls.foldl Add (New replicas fn)).hash
          (calls.foldl Add (New replicas fn)).replicas n := by
      rw [hr]
      exact List.mem_map.mpr ⟨0, List.mem_range.mpr (by omega), rfl⟩
    exact List.ne_nil_of_mem ((hi.mem_keys _).mpr ⟨n, hn, hp⟩)
  obtain ⟨p, hp, hget⟩ := Get_owner hi.sorted hkeys key
  obtain ⟨n, hl⟩ := hi.lookup_total p hp.1
  have hmem : Get (calls.foldl Add (New replicas fn)) key ∈ calls.flatten := by
    rw [hget, hl]
    exact (hi.lookup_sound p n hl).1
  exact ⟨hmem, fun hno he => hno (he ▸ hmem)⟩

/-- C11 fails as stated: when the node added is the one named "", `Get`
returns the empty string. -/
theorem ring_coverage_counterexample :
    Get ([[""]].foldl Add (New 1 (some (fun _ => 0)))) "k" = "" := by
  decide

/-- Witness of C11 as amended: the ring of "A" and "B". -/
theorem ring_coverage_witness :
    Get ([["A", "B"]].foldl Add (New 3 none)) "k" ∈ [["A", "B"]].flatten ∧
      ("" ∉ [["A", "B"]].flatten → Get ([["A", "B"]].foldl Add (New 3 none)) "k" ≠ "") :=
  ring_coverage 3 (by decide) none [["A", "B"]] (by decide) "k"

theorem length_flatMap_positions (hash : Hash) (replicas : Int) (ns : List String) :
    (ns.flatMap (positions hash replicas)).length = ns.length * replicas.toNat := by
  induction ns with
  | nil => simp
  | cons n ns ih =>
    rw [List.flatMap_cons, List.length_append, ih, List.length_cons, Nat.add_mul, Nat.one_mul,
      Nat.add_comm]
    simp [positions]

/-- C12 (ring state). After `Add` of any names on a ring built by `Add`
calls, for any replica count: `keys` is sorted in non-decreasing order; every
position in `keys` has an entry in `hashMap`; and `keys` is the sorted
sequence of the old positions followed, for each given name in turn, by the
positions `hash(strconv.Itoa(i) + name)` for `i` in `[0, replicas)`, that is
`replicas` new positions per name, and none when `replicas ≤ 0`. -/
theorem Add_ring_state (m : Map) (hm : Reachable m) (ns : List String) :
    (Add m ns).keys.Sorted (fun a b => a ≤ b) ∧
    (∀ p ∈ (Add m ns).keys, ∃ n, (Add m ns).hashMap.lookup p = some n) ∧
    (Add m ns).keys = Ints (m.keys ++ ns.flatMap (positions m.hash m.replicas)) ∧
    (Add m ns).keys.Perm (m.keys ++ ns.flatMap (positions m.hash m.replicas)) ∧
    (∀ n, positions m.hash m.replicas n =
      (List.range m.replicas.toNat).map (fun i => uint32 (m.hash (bytes (Itoa i ++ n))))) ∧
    (∀ n, (positions m.hash m.replicas n).length = m.replicas.toNat) ∧
    (m.replicas ≤ 0 → ns.flatMap (positions m.hash m.replicas) = []) ∧
    (Add m ns).keys.length = m.keys.length + ns.length * m.replicas.toNat := by
  obtain ⟨names, hi⟩ := ringInv_of_reachable hm
  have hi1 := ringInv_Add hi ns
  have hk := Add_keys m ns
  have hperm : (Add m ns).keys.Perm (m.keys ++ ns.flatMap (positions m.hash m.replicas)) := by
    rw [hk]; exact List.perm_insertionSort _ _
  have hlen : ∀ n, (positions m.hash m.replicas n).length = m.replicas.toNat := by
    intro n; simp [positions]
  refine ⟨hi1.sorted, hi1.lookup_total, hk, hperm, fun n => rfl, hlen, ?_, ?_⟩
  · intro hle
    have hz : m.replicas.toNat = 0 := by omega
    simp [positions, hz]
  · rw [hperm.length_eq, List.length_append]
    rw [length_flatMap_positions]

/-- Witness of C12: the node "C" joins the ring of "A" and "B". -/
theorem Add_ring_state_witness :
    (Add ringAB ["C"]).keys.Sorted (fun a b => a ≤ b) ∧
      (Add ringAB ["C"]).keys.length =
        ringAB.keys.length + ["C"].length * ringAB.replicas.toNat :=
  have h := Add_ring_state ringAB ⟨3, none, [["A", "B"]], rfl⟩ ["C"]
  ⟨h.1, h.2.2.2.2.2.2.2⟩

end consistenthash

/-! ## The cache facade and the group -/

namespace geecache


theorem cloneBytes_eq (b : List UInt8) : cloneBytes b = b := by
  simp [cloneBytes, copy, make]

theorem cache_get_nil (cacheBytes : Int) (key : String) :
    cache.get { lru := none, cacheBytes := cacheBytes } key =
      ((ByteView.mk [], false), { lru := none, cacheBytes := cacheBytes }) := rfl

theorem cache_get_eq (c : cache) (key : String) :
    (c.get key).1 = toResult (lru.Get c.view key).1 ∧
      (c.get key).2.view = (lru.Get c.view key).2 ∧
      (c.get key).2.cacheBytes = c.cacheBytes ∧
      ((c.get key).2.lru = none ↔ c.lru = none) := by
  cases hl : c.lru with
  | none =>
    have hc : c = { lru := none, cacheBytes := c.cacheBytes } := by
      cases c; simp_all
    rw [hc]
    refine ⟨?_, ?_, rfl, by simp [cache.get]⟩
    · simp only [cache.get, cache.view]
      rw [lru.Get_miss (AList.lookup_empty key)]; rfl
    · simp only [cache.get, cache.view]
      rw [lru.Get_miss (AList.lookup_empty key)]
  | some l =>
    have hv : c.view = l := by simp [cache.view, hl]
    rw [hv]
    cases hg : lru.Get l key with
    | mk r l1 =>
      cases r with
      | none => simp [cache.get, hl, hg, toResult, cache.view]
      | some v => simp [cache.get, hl, hg, toResult, cache.view]

theorem cache_add_eq (fuel : Nat) (c : cache) (key : String) (value : ByteView) :
    c.add fuel key value =
      (lru.Add fuel c.view key value).map (fun l1 => { lru := some l1, cacheBytes := c.cacheBytes }) := by
  show (match lru.Add fuel c.view key value with
    | some l1 => some { c with lru := some l1 }
    | none => none) = _
  cases lru.Add fuel c.view key value <;> rfl

theorem exec_refines (fuel : Nat) (ops : List cacheOp) (c : cache) :
    (cache.exec fuel ops c).map (fun r => (r.1, r.2.view)) =
      (lruExec fuel ops c.view).map (fun r => (r.1.map toResult, r.2)) := by
  induction ops generalizing c with
  | nil => rfl
  | cons op ops ih =>
    cases op with
    | add key value =>
      simp only [cache.exec, lruExec]
      rw [cache_add_eq]
      cases ha : lru.Add fuel c.view key value with
      | none => rfl
      | some l1 =>
        simp only [Option.map_some']
        exact ih { lru := some l1, cacheBytes := c.cacheBytes }
    | get key =>
      obtain ⟨h1, h2, -, -⟩ := cache_get_eq c key
      simp only [cache.exec, lruExec]
      have := ih (c.get key).2
      rw [h2] at this
      cases he : cache.exec fuel ops (c.get key).2 with
      | none =>
        rw [he] at this
        cases hl : lruExec fuel ops (lru.Get c.view key).2 with
        | none => rfl
        | some r => rw [hl] at this; cases this
      | some r =>
        rw [he] at this
        cases hl : lruExec fuel ops (lru.Get c.view key).2 with
        | none => rw [hl] at this; cases this
        | some r1 =>
          rw [hl] at this
          simp only [Option.map_some', Option.some.injEq, Prod.mk.injEq] at this ⊢
          exact ⟨by rw [h1, this.1]; rfl, this.2⟩

/-- C18 (the facade adds no policy). A sequence of `add` and `get` calls on a
`cache` with capacity `cacheBytes` and no `lru` yet returns exactly when the
same sequence of `Add` and `Get` calls on `lru.New(cacheBytes, nil)` does, with
the same results and the same underlying cache at the end. In particular `get`
on a cache without `lru` returns the zero `ByteView` and `false` and leaves
`lru` nil, and the first `add` is `Add` on `lru.New(cacheBytes, nil)`, whose
`maxBytes` is `cacheBytes` and which has no eviction callback. -/
theorem facade_adds_no_policy (cacheBytes : Int) (fuel : Nat) (ops : List cacheOp) :
    (cache.exec fuel ops { lru := none, cacheBytes := cacheBytes }).map
        (fun r => (r.1, r.2.view)) =
      (lruExec fuel ops (lru.New cacheBytes false)).map (fun r => (r.1.map toResult, r.2)) ∧
    (∀ key, cache.get { lru := none, cacheBytes := cacheBytes } key =
      ((ByteView.mk [], false), { lru := none, cacheBytes := cacheBytes })) ∧
    (∀ key value, cache.add fuel { lru := none, cacheBytes := cacheBytes } key value =
      (lru.Add fuel (lru.New cacheBytes false) key value).map
        (fun l1 => { lru := some l1, cacheBytes := cacheBytes })) ∧
    ((lru.New cacheBytes false : lru.Cache ByteView).maxBytes = cacheBytes ∧
      (lru.New cacheBytes false : lru.Cache ByteView).OnEvicted = false) :=
  ⟨exec_refines fuel ops { lru := none, cacheBytes := cacheBytes },
    fun key => cache_get_nil cacheBytes key,
    fun key value => cache_add_eq fuel { lru := none, cacheBytes := cacheBytes } key value,
    rfl, rfl⟩


variable {E : Type}

theorem Group_Get_empty_key (fuel : Nat) (g : Group E) :
    g.Get fuel "" = some ((ByteView.mk [], some Error.keyIsRequired), g) := by
  simp [Group.Get]

theorem Group_Get_hit {g : Group E} {key : String} {v : ByteView} {c1 : cache} (fuel : Nat)
    (hk : key ≠ "") (h : g.mainCache.get key = ((v, true), c1)) :
    g.Get fuel key = some ((v, none), { g with mainCache := c1, hits := g.hits + 1 }) := by
  simp [Group.Get, hk, h]

theorem Group_Get_miss {g : Group E} {key : String} {v : ByteView} {c1 : cache} (fuel : Nat)
    (hk : key ≠ "") (h : g.mainCache.get key = ((v, false), c1)) :
    g.Get fuel key = Group.getLocally fuel { g with mainCache := c1 } key := by
  simp [Group.Get, hk, h, Group.load]

theorem getLocally_fail {g : Group E} {key : String} {bs : List UInt8} {e : E} (fuel : Nat)
    (h : g.getter key = (bs, some e)) :
    g.getLocally fuel key =
      some ((ByteView.mk [], some (Error.getter e)), { g with loads := g.loads ++ [key] }) := by
  simp [Group.getLocally, h]

theorem getLocally_ok {g : Group E} {key : String} {bs : List UInt8} (fuel : Nat)
    (h : g.getter key = (bs, none)) :
    g.getLocally fuel key =
      (g.mainCache.add fuel key (ByteView.mk bs)).map
        (fun c => ((ByteView.mk bs, none), { g with loads := g.loads ++ [key], mainCache := c })) := by
  simp only [Group.getLocally, h, Group.populateCache, cloneBytes_eq]
  cases g.mainCache.add fuel key (ByteView.mk bs) <;> rfl

theorem cache_get_miss {c : cache} {key : String}
    (h : ∀ l, c.lru = some l → l.cache.lookup key = none) :
    c.get key = ((ByteView.mk [], false), c) := by
  cases hl : c.lru with
  | none => simp [cache.get, hl]
  | some l =>
    simp only [cache.get, hl, lru.Get_miss (h l hl)]
    cases c
    simp_all

theorem cache_get_hit {c : cache} {key : String} {l : lru.Cache ByteView} {ele : Nat}
    {kv : lru.entry ByteView} (hl : c.lru = some l) (h1 : l.cache.lookup key = some ele)
    (h2 : l.heap ele = some kv) :
    c.get key = ((kv.value, true),
      { c with lru := some { l with ll := lru.MoveToFront l.ll ele } }) := by
  simp [cache.get, hl, lru.Get_hit h1 h2]

/-- C14 (loader failure is not cached). For every group, every non-empty key
`k` that is not in the cache and a getter that fails on `k` with error `e`:
`Get(k)` returns the zero `ByteView` with the error `e` as it is, the only
change to the group being that the getter has been invoked once more with `k`
(the cache is exactly as before), and the next `Get(k)` invokes the getter
again, with the same result. -/
theorem loader_failure_not_cached (g : Group E) (k : String) (hk : k ≠ "")
    (hnot : ∀ l, g.mainCache.lru = some l → l.cache.lookup k = none)
    (bs : List UInt8) (e : E) (hload : g.getter k = (bs, some e)) (fuel : Nat) :
    g.Get fuel k =
      some ((ByteView.mk [], some (Error.getter e)), { g with loads := g.loads ++ [k] }) ∧
    Group.Get fuel { g with loads := g.loads ++ [k] } k =
      some ((ByteView.mk [], some (Error.getter e)),
        { g with loads := g.loads ++ [k] ++ [k] }) := by
  constructor
  · rw [Group_Get_miss fuel hk (cache_get_miss hnot)]
    exact getLocally_fail fuel hload
  · rw [Group_Get_miss (g := { g with loads := g.loads ++ [k] }) fuel hk
      (cache_get_miss (c := g.mainCache) hnot)]
    exact getLocally_fail (g := { g with loads := g.loads ++ [k] }) fuel hload

/-- C15 (empty key). For every group, `Get("")` returns the zero `ByteView`
with the error "key is required" and changes nothing, so the getter is not
invoked and the cache is as before; and a `Get` that returns this error was
called with the empty key. -/
theorem empty_key_rejected (g : Group E) (fuel : Nat) :
    g.Get fuel "" = some ((ByteView.mk [], some Error.keyIsRequired), g) ∧
    ∀ (key : String) (v : ByteView) (g1 : Group E),
      g.Get fuel key = some ((v, some Error.keyIsRequired), g1) → key = "" := by
  refine ⟨Group_Get_empty_key fuel g, ?_⟩
  intro key v g1 h
  by_contra hk
  cases hg : g.mainCache.get key with
  | mk r c1 =>
    cases r with
    | mk v1 ok =>
      cases ok with
      | true =>
        rw [Group_Get_hit fuel hk hg] at h
        simp at h
      | false =>
        rw [Group_Get_miss fuel hk hg] at h
        cases hl : g.getter key with
        | mk bs err =>
          cases err with
          | some e =>
            rw [getLocally_fail (g := { g with mainCache := c1 }) fuel hl] at h
            simp at h
          | none =>
            rw [getLocally_ok (g := { g with mainCache := c1 }) fuel hl] at h
            cases ha : cache.add fuel c1 key (ByteView.mk bs) with
            | none => simp [ha] at h
            | some c2 => simp [ha] at h


theorem inv_cache_get {c : cache} (key : String)
    (h : lru.Inv c.view ∧ c.view.maxBytes = c.cacheBytes) :
    lru.Inv (c.get key).2.view ∧ (c.get key).2.view.maxBytes = (c.get key).2.cacheBytes := by
  obtain ⟨-, h2, h3, -⟩ := cache_get_eq c key
  rw [h2, h3]
  exact ⟨lru.inv_Get h.1 key, by rw [(lru.Get_fields c.view key).2.2.2]; exact h.2⟩

theorem inv_cache_add {fuel : Nat} {c c1 : cache} {key : String} {value : ByteView}
    (h : lru.Inv c.view ∧ c.view.maxBytes = c.cacheBytes) (ha : c.add fuel key value = some c1) :
    lru.Inv c1.view ∧ c1.view.maxBytes = c1.cacheBytes := by
  rw [cache_add_eq] at ha
  cases hl : lru.Add fuel c.view key value with
  | none => rw [hl] at ha; cases ha
  | some l1 =>
    rw [hl] at ha
    cases ha
    show lru.Inv l1 ∧ l1.maxBytes = c.cacheBytes
    refine ⟨lru.inv_evictLoop (lru.inv_addEntry h.1 key value) hl, ?_⟩
    rw [(lru.evictLoop_post hl).2.1, lru.addEntry_maxBytes]
    exact h.2

variable {E : Type}

theorem inv_Group_Get {fuel : Nat} {g : Group E} {key : String}
    {r : (ByteView × Option (Error E)) × Group E} (h : g.Inv) (hr : g.Get fuel key = some r) :
    r.2.Inv := by
  by_cases hk : key = ""
  · subst hk
    rw [Group_Get_empty_key] at hr
    cases hr
    exact h
  · have hc := inv_cache_get key h
    cases hg : g.mainCache.get key with
    | mk res c1 =>
      rw [hg] at hc
      cases res with
      | mk v ok =>
        cases ok with
        | true =>
          rw [Group_Get_hit fuel hk hg] at hr
          cases hr
          exact hc
        | false =>
          rw [Group_Get_miss fuel hk hg] at hr
          cases hl : g.getter key with
          | mk bs err =>
            cases err with
            | some e =>
              rw [getLocally_fail (g := { g with mainCache := c1 }) fuel hl] at hr
              cases hr
              exact hc
            | none =>
              rw [getLocally_ok (g := { g with mainCache := c1 }) fuel hl] at hr
              cases ha : cache.add fuel c1 key (ByteView.mk bs) with
              | none => simp [ha] at hr
              | some c2 =>
                simp only [ha, Option.map_some', Option.some.injEq] at hr
                cases hr
                exact inv_cache_add hc ha

theorem inv_runGets {fuel : Nat} {keys : List String} {g g1 : Group E} (h : g.Inv)
    (hr : Group.runGets fuel keys g = some g1) : g1.Inv := by
  induction keys generalizing g with
  | nil => cases hr; exact h
  | cons key keys ih =>
    rw [Group.runGets] at hr
    cases hg : g.Get fuel key with
    | none => rw [hg] at hr; cases hr
    | some r =>
      rw [hg] at hr
      exact ih (inv_Group_Get h hg) hr

theorem inv_of_Group_reachable {g : Group E} (h : g.Reachable) : g.Inv := by
  obtain ⟨name, cacheBytes, getter, fuel, keys, hr⟩ := h
  have h0 : (NewGroup name cacheBytes getter).Inv := ⟨lru.inv_New cacheBytes false, rfl⟩
  exact inv_runGets h0 hr

/-- C13 (cache-aside). For a reachable group with
`cacheBytes ≥ 0` whose cache holds no entry, a non-empty key `k` and a getter
that succeeds on `k` with bytes `bs`: `Get(k)` returns (the bound on the
eviction loop being at least 2) a `ByteView` with contents `bs` and a nil
error, having invoked the getter exactly once more, with `k`. If nothing has
been evicted, that is the cache then holds one entry, which is the case when
`cacheBytes = 0` or `len(k) + len(bs) ≤ cacheBytes`, a second `Get(k)` returns
the same contents without invoking the getter. -/
theorem cache_aside (g : Group E) (hg : g.Reachable) (hempty : lru.Len g.mainCache.view = 0)
    (hcap : 0 ≤ g.mainCache.cacheBytes) (k : String) (hk : k ≠ "") (bs : List UInt8)
    (hload : g.getter k = (bs, none)) (fuel : Nat) (hfuel : 2 ≤ fuel) :
    ∃ g1, g.Get fuel k = some ((ByteView.mk bs, none), g1) ∧ g1.loads = g.loads ++ [k] ∧
      ((g.mainCache.cacheBytes = 0 ∨
          (k.utf8ByteSize : Int) + (bs.length : Int) ≤ g.mainCache.cacheBytes) →
        lru.Len g1.mainCache.view = 1) ∧
      (lru.Len g1.mainCache.view = 1 →
        ∃ g2, g1.Get fuel k = some ((ByteView.mk bs, none), g2) ∧ g2.loads = g1.loads) := by
  obtain ⟨hi, hm⟩ := inv_of_Group_reachable hg
  have hnil : g.mainCache.view.ll = [] := List.length_eq_zero.mp hempty
  have hmiss : g.mainCache.view.cache.lookup k = none := lru.cache_empty_of_nil hi hnil k
  obtain ⟨e1, e2, e3, -⟩ := cache_get_eq g.mainCache k
  rw [lru.Get_miss hmiss] at e1 e2
  have e1a : (g.mainCache.get k).1 = (ByteView.mk [], false) := e1
  have e2a : (g.mainCache.get k).2.view = g.mainCache.view := e2
  have hget : g.mainCache.get k = ((ByteView.mk [], false), (g.mainCache.get k).2) :=
    Prod.ext e1a rfl
  obtain ⟨l1, ha, hi1, -, -, -, -⟩ := lru.Add_returns fuel hi (by rw [hm]; exact hcap) k
    (ByteView.mk bs) (by rw [hnil]; exact hfuel)
  have hnew := lru.addEntry_new (ByteView.mk bs) hmiss
  have hfirst : g.Get fuel k = some ((ByteView.mk bs, none),
      { g with
        mainCache := { lru := some l1, cacheBytes := g.mainCache.cacheBytes }
        loads := g.loads ++ [k] }) := by
    rw [Group_Get_miss fuel hk hget, getLocally_ok (g := { g with mainCache := (g.mainCache.get k).2 })
      fuel hload, cache_add_eq, e2a, e3, ha]
    rfl
  refine ⟨_, hfirst, rfl, ?_, ?_⟩
  · intro hfit
    show l1.ll.length = 1
    obtain ⟨n, rfl⟩ : ∃ n, fuel = n + 1 := ⟨fuel - 1, by omega⟩
    rw [lru.Add_no_evict n (by
      rw [hnew]
      simp only []
      rw [lru.nbytes_eq_zero_of_nil hi hnil, hm]
      rintro ⟨hz, hlt⟩
      rcases hfit with h0 | hle
      · exact hz h0
      · have : lru.Value.Len (ByteView.mk bs) = (bs.length : Int) := rfl
        have h2 := lru.int64_le_self
          (0 + ((k.utf8ByteSize : Int) + lru.Value.Len (ByteView.mk bs))) (by omega)
        omega)] at ha
    cases ha
    rw [hnew, hnil]
    rfl
  · intro hone
    have hlen : l1.ll.length = (lru.addEntry g.mainCache.view k (ByteView.mk bs)).ll.length := by
      rw [hnew, hnil]
      exact hone
    have heq : l1 = lru.addEntry g.mainCache.view k (ByteView.mk bs) :=
      lru.evictLoop_eq_of_length (lru.inv_addEntry hi k (ByteView.mk bs)) ha hlen
    have hl1 : l1.cache.lookup k = some g.mainCache.view.next := by
      rw [heq, hnew]
      exact AList.lookup_insert _
    have hh1 : l1.heap g.mainCache.view.next = some (lru.entry.mk k (ByteView.mk bs)) := by
      rw [heq, hnew]
      exact Function.update_same _ _ _
    refine ⟨_, Group_Get_hit fuel hk (cache_get_hit rfl hl1 hh1), rfl⟩

/-- Witness of C13: the key "Tom" on a fresh group of capacity 10. -/
theorem cache_aside_witness :
    ∃ g1, scores.Get 2 "Tom" = some ((ByteView.mk [1], none), g1) ∧
      g1.loads = scores.loads ++ ["Tom"] ∧
      ((scores.mainCache.cacheBytes = 0 ∨
          (("Tom" : String).utf8ByteSize : Int) + (([1] : List UInt8).length : Int) ≤
            scores.mainCache.cacheBytes) →
        lru.Len g1.mainCache.view = 1) ∧
      (lru.Len g1.mainCache.view = 1 →
        ∃ g2, g1.Get 2 "Tom" = some ((ByteView.mk [1], none), g2) ∧ g2.loads = g1.loads) :=
  cache_aside scores ⟨"scores", 10, fun _ => ([1], none), 0, [], rfl⟩ (by decide) (by decide)
    "Tom" (by decide) [1] rfl 2 (by decide)

/-- Witness of C14: the key "Tom" on a fresh group whose getter fails. -/
theorem loader_failure_not_cached_witness :
    failing.Get 0 "Tom" =
      some ((ByteView.mk [], some (Error.getter "Tom not exist")),
        { failing with loads := failing.loads ++ ["Tom"] }) ∧
    Group.Get 0 { failing with loads := failing.loads ++ ["Tom"] } "Tom" =
      some ((ByteView.mk [], some (Error.getter "Tom not exist")),
        { failing with loads := failing.loads ++ ["Tom"] ++ ["Tom"] }) :=
  loader_failure_not_cached failing "Tom" (by decide) (fun _ h => by cases h) []
    "Tom not exist" (by decide) 0

end geecache

/-! ## Byte views and slices -/

namespace byteview


theorem array_set_ne (m : Mem) {p q : Nat} (a : List UInt8) (h : p ≠ q) :
    Mem.array { arrays := m.arrays.set q a } p = m.array p := by
  simp [Mem.array, List.getElem?_set_ne (Ne.symm h)]

theorem array_set_eq (m : Mem) {q : Nat} (a : List UInt8) (h : q < m.arrays.length) :
    Mem.array { arrays := m.arrays.set q a } q = a := by
  simp [Mem.array, h]

theorem array_append_lt (m : Mem) {p : Nat} (a : List UInt8) (h : p < m.arrays.length) :
    Mem.array { arrays := m.arrays ++ [a] } p = m.array p := by
  simp [Mem.array, List.getElem?_append_left h]

theorem array_append_eq (m : Mem) (a : List UInt8) :
    Mem.array { arrays := m.arrays ++ [a] } m.arrays.length = a := by
  simp [Mem.array]

/-- What `cloneBytes` does to memory. -/
theorem cloneBytes_spec (m : Mem) (b : Slice) (hp : b.ptr < m.arrays.length)
    (hl : b.len ≤ (m.array b.ptr).length) :
    (cloneBytes m b).2 = { ptr := m.arrays.length, len := b.len } ∧
    (cloneBytes m b).1.arrays.length = m.arrays.length + 1 ∧
    (cloneBytes m b).1.array m.arrays.length = m.read b ∧
    (∀ p, p < m.arrays.length → (cloneBytes m b).1.array p = m.array p) := by
  have hread : Mem.read { arrays := m.arrays ++ [List.replicate b.len 0] } b = m.read b := by
    simp only [Mem.read, array_append_lt m _ hp]
  have hlen : (m.read b).length = b.len := by
    simp only [Mem.read, List.length_take]; omega
  refine ⟨rfl, ?_, ?_, ?_⟩
  · show ((m.arrays ++ [List.replicate b.len 0]).set m.arrays.length _).length = _
    rw [List.length_set, List.length_append]
    rfl
  · show Mem.array { arrays := (m.arrays ++ [List.replicate b.len 0]).set m.arrays.length _ }
      m.arrays.length = _
    rw [array_set_eq { arrays := m.arrays ++ [List.replicate b.len 0] } _ (by simp)]
    show List.take (min b.len b.len)
        (Mem.read { arrays := m.arrays ++ [List.replicate b.len 0] } b) ++
      List.drop (min b.len b.len)
        (Mem.array { arrays := m.arrays ++ [List.replicate b.len 0] } m.arrays.length) = _
    rw [Nat.min_self, hread, array_append_eq, List.take_of_length_le (by omega),
      List.drop_of_length_le (by simp), List.append_nil]
  · intro p hp1
    show Mem.array { arrays := (m.arrays ++ [List.replicate b.len 0]).set m.arrays.length _ } p = _
    rw [array_set_ne { arrays := m.arrays ++ [List.replicate b.len 0] } _ (by omega),
      array_append_lt m _ hp1]

theorem store_array_ne (m : Mem) (s : Slice) (i : Nat) (x : UInt8) {p : Nat} (h : p ≠ s.ptr) :
    (m.store s i x).array p = m.array p := by
  unfold Mem.store
  split_ifs
  · exact array_set_ne m _ h
  · rfl

theorem store_length (m : Mem) (s : Slice) (i : Nat) (x : UInt8) :
    (m.store s i x).arrays.length = m.arrays.length := by
  unfold Mem.store
  split_ifs <;> simp

/-- C17 (`ByteView` immutability). For a view whose slice lies in memory:
`ByteSlice()` returns a slice, on an array other than the view's own, whose
elements equal the stored bytes one for one and whose length is `Len()`;
`String()` is the same bytes; the call leaves the stored bytes as they are;
and after any assignment to an element of the returned slice the stored bytes,
the next `ByteSlice()` and `String()` are the same as before (`Len()` does not
read memory at all). -/
theorem byteview_immutable (m : Mem) (v : ByteView) (hp : v.b.ptr < m.arrays.length)
    (hl : v.b.len ≤ (m.array v.b.ptr).length) :
    (v.ByteSlice m).1.read (v.ByteSlice m).2 = m.read v.b ∧
    (v.ByteSlice m).2.ptr ≠ v.b.ptr ∧
    (((v.ByteSlice m).1.read (v.ByteSlice m).2).length : Int) = v.Len ∧
    v.String m = m.read v.b ∧
    (v.ByteSlice m).1.read v.b = m.read v.b ∧
    ∀ (i : Nat) (x : UInt8),
      ((v.ByteSlice m).1.store (v.ByteSlice m).2 i x).read v.b = m.read v.b ∧
      (v.ByteSlice ((v.ByteSlice m).1.store (v.ByteSlice m).2 i x)).1.read
        (v.ByteSlice ((v.ByteSlice m).1.store (v.ByteSlice m).2 i x)).2 = m.read v.b ∧
      v.String ((v.ByteSlice m).1.store (v.ByteSlice m).2 i x) = v.String m := by
  obtain ⟨h1, h2, h3, h4⟩ := cloneBytes_spec m v.b hp hl
  have hlen : (m.read v.b).length = v.b.len := by
    simp only [Mem.read, List.length_take]; omega
  have hread1 : (v.ByteSlice m).1.read (v.ByteSlice m).2 = m.read v.b := by
    show (cloneBytes m v.b).1.read (cloneBytes m v.b).2 = _
    rw [h1]
    show ((cloneBytes m v.b).1.array m.arrays.length).take v.b.len = _
    rw [h3, List.take_of_length_le (by omega)]
  have hptr : (v.ByteSlice m).2.ptr = m.arrays.length := by
    show (cloneBytes m v.b).2.ptr = _
    rw [h1]
  have hkeep : (v.ByteSlice m).1.read v.b = m.read v.b := by
    show ((cloneBytes m v.b).1.array v.b.ptr).take v.b.len = _
    rw [h4 _ hp]; rfl
  refine ⟨hread1, by rw [hptr]; omega, ?_, rfl, hkeep, ?_⟩
  · rw [hread1, hlen]; rfl
  · intro i x
    have harr : ((v.ByteSlice m).1.store (v.ByteSlice m).2 i x).array v.b.ptr = m.array v.b.ptr := by
      rw [store_array_ne _ _ _ _ (by rw [hptr]; omega)]
      exact h4 _ hp
    have hr2 : ((v.ByteSlice m).1.store (v.ByteSlice m).2 i x).read v.b = m.read v.b := by
      show (((v.ByteSlice m).1.store (v.ByteSlice m).2 i x).array v.b.ptr).take v.b.len = _
      rw [harr]; rfl
    refine ⟨hr2, ?_, hr2⟩
    obtain ⟨g1, -, g3, -⟩ := cloneBytes_spec ((v.ByteSlice m).1.store (v.ByteSlice m).2 i x) v.b
      (by
        rw [store_length]
        show v.b.ptr < (cloneBytes m v.b).1.arrays.length
        rw [h2]; omega)
      (by rw [harr]; exact hl)
    show (cloneBytes _ v.b).1.read (cloneBytes _ v.b).2 = _
    rw [g1]
    show ((cloneBytes _ v.b).1.array _).take v.b.len = _
    rw [g3, hr2, List.take_of_length_le (by omega)]

/-- Witness of C17: a view of the three bytes 1, 2, 3. -/
theorem byteview_immutable_witness :
    (ByteView.ByteSlice { arrays := [[1, 2, 3]] } { b := { ptr := 0, len := 3 } }).1.read
        (ByteView.ByteSlice { arrays := [[1, 2, 3]] } { b := { ptr := 0, len := 3 } }).2 =
      Mem.read { arrays := [[1, 2, 3]] } { ptr := 0, len := 3 } :=
  (byteview_immutable { arrays := [[1, 2, 3]] } { b := { ptr := 0, len := 3 } }
    (by decide) (by decide)).1

end byteview
